import Mathlib

/-!
# Verification of the Myers diff implementation (`src/myers-diff.cpp`)

This file gives a shallow embedding of the two core functions of the
repository, `FindMiddleSnake` and `ShortestEditScript`, and proves/refutes
the frozen claims about them.

Modelling choices:
* C++ `int` values are modelled as `Int` (no arithmetic in the algorithm can
  overflow 32 bits for the inputs considered, and the claims are about the
  mathematical behaviour).
* A C array pointer `const int seq[]` together with pointer arithmetic
  `seq + u` is modelled as a function `Int → Int` and the shift
  `fun i => seq (u + i)`.
* The diagonal arrays `Vf`, `Vb` are modelled as total maps `Int → Int` with
  functional update.  In the purely functional model they start from the
  all-zero map; the algorithm never reads an entry it has not written (apart
  from the seeds `Vf[1] = Vb[1] = 0`), so this models the defined behaviour
  of one invocation.  The C++ `static` storage semantics (the correctness
  hazard flagged by the spec) is modelled separately and faithfully by the
  stateful embedding further down, with explicit array bounds and
  bounds-checked accesses.
* The C++ `while` loops are modelled by structural recursion on an explicit
  iteration budget that is exact by construction: the budget reaches `0`
  exactly when the loop condition fails, so the embedded function computes
  the same result as the loop.
* The `for` loops over `k = -D, -D+2, …, D` and over `D = 0, …, ⌈MAX/2⌉`
  are modelled by folding over the exact list of loop-counter values.
* The result container `Diff = std::multiset<std::pair<int, std::string>>`
  is modelled as `Multiset (Int × String)`; `insert` is multiset insertion
  and inserting a whole sub-result is multiset addition.
* `return {};` for `std::tuple<int,int,int,int,int>` value-initializes the
  tuple, i.e. yields `(0,0,0,0,0)`.
-/

namespace MyersDiff

/-- The five components returned by `FindMiddleSnake`:
`(D, x, y, u, v)` = edit distance, snake start, snake end. -/
abbrev Snake : Type := Int × Int × Int × Int × Int

/-- Functional update of a diagonal array. -/
def upd (V : Int → Int) (k x : Int) : Int → Int := fun i => if i = k then x else V i

@[simp] theorem upd_same (V : Int → Int) (k x : Int) : upd V k x k = x := by
  simp [upd]

theorem upd_ne (V : Int → Int) (k x i : Int) (h : i ≠ k) : upd V k x i = V i := by
  simp [upd, h]

/-- `⌈n / 2⌉`, the value of `std::ceil(MAX / 2.0)` at an integer `MAX`
(the division `MAX / 2.0` and the ceiling are exact in `double` for the
magnitudes involved). -/
def ceilHalf (n : Int) : Int := Int.ediv (n + 1) 2

/-- The snake extension loop
`while (x < N && y < M && f x == g y) { x += 1; y += 1; }`,
structural on an iteration budget.  `f` and `g` are the element-access
functions of the two sequences (already reversed for the backward search). -/
def snakeGo (f g : Int → Int) (N M : Int) : Nat → Int → Int → Int × Int
  | 0, x, y => (x, y)
  | fuel + 1, x, y =>
    if x < N ∧ y < M ∧ f x = g y then snakeGo f g N M fuel (x + 1) (y + 1) else (x, y)

/-- The snake extension loop with its exact iteration budget `(N - x).toNat`:
the budget is `0` exactly when `x < N` already fails, so this computes the
same pair as the C++ `while` loop. -/
def snake (f g : Int → Int) (N M x y : Int) : Int × Int :=
  snakeGo f g N M (N - x).toNat x y

/-- Body of the forward `k`-loop of `FindMiddleSnake`
(src/myers-diff.cpp lines 90-118): computes the new `Vf` and, when the
overlap check fires, the returned tuple `(2D-1, x_i, y_i, x, y)`. -/
def fwdDiag (a b : Int → Int) (N M Delta D : Int) (Vb : Int → Int)
    (k : Int) (Vf : Int → Int) : (Int → Int) × Option Snake :=
  let x0 := if k = -D ∨ (k ≠ D ∧ Vf (k - 1) < Vf (k + 1)) then Vf (k + 1) else Vf (k - 1) + 1
  let y0 := x0 - k
  let p := snake a b N M x0 y0
  let Vf' := upd Vf k p.1
  if ((Int.tmod Delta 2).natAbs = 1 ∧ -(D - 1) ≤ -(k - Delta) ∧ -(k - Delta) ≤ D - 1) ∧
      Vf' k + Vb (-(k - Delta)) ≥ N then
    (Vf', some (2 * D - 1, x0, y0, p.1, p.2))
  else
    (Vf', none)

/-- Body of the backward `k`-loop of `FindMiddleSnake`
(src/myers-diff.cpp lines 119-139): element accesses are
`old[N-x-1]`/`new[M-y-1]`, and on overlap it returns
`(2D, N-x, M-y, N-x_i, M-y_i)`. -/
def bwdDiag (a b : Int → Int) (N M Delta D : Int) (Vf : Int → Int)
    (k : Int) (Vb : Int → Int) : (Int → Int) × Option Snake :=
  let x0 := if k = -D ∨ (k ≠ D ∧ Vb (k - 1) < Vb (k + 1)) then Vb (k + 1) else Vb (k - 1) + 1
  let y0 := x0 - k
  let p := snake (fun i => a (N - i - 1)) (fun j => b (M - j - 1)) N M x0 y0
  let Vb' := upd Vb k p.1
  if (Int.tmod Delta 2 = 0 ∧ -D ≤ -(k - Delta) ∧ -(k - Delta) ≤ D) ∧
      Vb' k + Vf (-(k - Delta)) ≥ N then
    (Vb', some (2 * D, N - p.1, M - p.2, N - x0, M - y0))
  else
    (Vb', none)

/-- The exact list of values taken by the loop counter of
`for (int k = -D; k <= D; k += 2)` (for the `D ≥ 0` arising here). -/
def kList (D : Int) : List Int :=
  (List.range (D + 1).toNat).map fun i : Nat => -D + 2 * (i : Int)

/-- One pass of a `k`-loop: runs `step` on each diagonal in turn, threading
the mutated array, and stops early when a step returns a tuple. -/
def diagPass (step : Int → (Int → Int) → (Int → Int) × Option Snake) :
    List Int → (Int → Int) → (Int → Int) × Option Snake
  | [], V => (V, none)
  | k :: ks, V =>
    match step k V with
    | (V', some r) => (V', some r)
    | (V', none) => diagPass step ks V'

/-- The outer loop `for (int D = 0; D <= std::ceil(MAX / 2.0); D++)`:
for each round, a forward pass then a backward pass, threading both arrays;
`none` models falling out of the loop (the C++ `return {};` at line 141). -/
def dLoop (a b : Int → Int) (N M Delta : Int) :
    List Int → (Int → Int) → (Int → Int) → Option Snake
  | [], _, _ => none
  | D :: Ds, Vf, Vb =>
    match diagPass (fwdDiag a b N M Delta D Vb) (kList D) Vf with
    | (_, some r) => some r
    | (Vf', none) =>
      match diagPass (bwdDiag a b N M Delta D Vf') (kList D) Vb with
      | (_, some r) => some r
      | (Vb', none) => dLoop a b N M Delta Ds Vf' Vb'

/-- The exact list of values taken by the outer loop counter
`D = 0, 1, …, ⌈MAX/2⌉`. -/
def dList (MAX : Int) : List Int :=
  (List.range (ceilHalf MAX + 1).toNat).map fun i : Nat => (i : Int)

/-- `FindMiddleSnake` up to the final `return {};`: `some r` when one of the
overlap checks returns, `none` when the search loop exhausts its bound.
The initial array contents are a parameter (`Vf0`, `Vb0`); the seeds
`Vf[1] = 0`, `Vb[1] = 0` (lines 81-83) are written before the loop. -/
def findMiddleSnakeCore (a : Int → Int) (N : Int) (b : Int → Int) (M : Int)
    (Vf0 Vb0 : Int → Int) : Option Snake :=
  dLoop a b N M (N - M) (dList (M + N)) (upd Vf0 1 0) (upd Vb0 1 0)

/-- `FindMiddleSnake` (src/myers-diff.cpp lines 68-142), one invocation with
fresh arrays: the loop result, or the value-initialized tuple `(0,0,0,0,0)`
from `return {};` when the loop exhausts. -/
def FindMiddleSnake (a : Int → Int) (N : Int) (b : Int → Int) (M : Int) : Snake :=
  (findMiddleSnakeCore a N b M (fun _ => 0) (fun _ => 0)).getD (0, 0, 0, 0, 0)

/-- Pointer arithmetic `seq + u`. -/
def shift (a : Int → Int) (u : Int) : Int → Int := fun i => a (u + i)

/-- The `del` operations inserted by the `N > 0` base case
(lines 197-203): `(current_x + i, "del")` for `i = 0, …, N-1`. -/
def delOps (N cx : Int) : Multiset (Int × String) :=
  ↑((List.range N.toNat).map fun i : Nat => (cx + (i : Int), "del"))

/-- The `add` operations inserted by the `M > 0` base case
(lines 204-210): `(current_y + i, "add")` for `i = 0, …, M-1`. -/
def addOps (M cy : Int) : Multiset (Int × String) :=
  ↑((List.range M.toNat).map fun i : Nat => (cy + (i : Int), "add"))

/-- `ShortestEditScript` (src/myers-diff.cpp lines 164-213), structural on a
recursion budget (`none` = budget exhausted; the C++ recursion has no
intrinsic termination guard, so the budget models its call stack). -/
def ShortestEditScript : Nat → (Int → Int) → Int → (Int → Int) → Int → Int → Int →
    Option (Multiset (Int × String))
  | 0, _, _, _, _, _, _ => none
  | fuel + 1, a, N, b, M, cx, cy =>
    if N > 0 ∧ M > 0 then
      match FindMiddleSnake a N b M with
      | (D, x, y, u, v) =>
        if D > 1 ∨ (x ≠ u ∧ y ≠ v) then
          match ShortestEditScript fuel a x b y cx cy,
              ShortestEditScript fuel (shift a u) (N - u) (shift b v) (M - v)
                (cx + u) (cy + v) with
          | some r1, some r2 => some (r1 + r2)
          | _, _ => none
        else if M > N then
          ShortestEditScript fuel (shift a N) (N - N) (shift b N) (M - N) (cx + N) (cy + N)
        else if M < N then
          ShortestEditScript fuel (shift a M) (N - M) (shift b M) (M - M) (cx + M) (cy + M)
        else
          some 0
    else if N > 0 then
      some (delOps N cx)
    else if M > 0 then
      some (addOps M cy)
    else
      some 0

/-- View a list as a C array (out-of-range reads, which the algorithm never
performs on the indices it uses, give `0`). -/
def ofList (l : List Int) : Int → Int := fun i => l.getD i.toNat 0

/-- A recursion budget sufficient for `ShortestEditScript` on sequences of
lengths `N`, `M` (each recursive call strictly decreases `N + M`, plus one
level for the base case). -/
def diffFuel (A B : List Int) : Nat := A.length + B.length + 1

/-- The top-level entry point: `ShortestEditScript(A, len A, B, len B, 0, 0)`. -/
def diff (A B : List Int) : Option (Multiset (Int × String)) :=
  ShortestEditScript (diffFuel A B) (ofList A) A.length (ofList B) B.length 0 0

/-! ## Basic facts about the loop building blocks -/

/-- The truncated remainder by `2` is `0`, `1` or `-1`. -/
theorem tmod_two_cases (n : Int) : Int.tmod n 2 = 0 ∨ Int.tmod n 2 = 1 ∨ Int.tmod n 2 = -1 := by
  rcases n with m | m
  · have hm : m % 2 = 0 ∨ m % 2 = 1 := by omega
    rcases hm with h | h <;> simp [Int.tmod, h]
  · have hm : (m + 1) % 2 = 0 ∨ (m + 1) % 2 = 1 := by omega
    rcases hm with h | h <;> simp [Int.tmod, Nat.succ_eq_add_one, h]

/-- The truncated remainder `Delta % 2` of C++ has absolute value `1` exactly
when `Delta` is odd. -/
theorem tmod_two_natAbs_eq_one_iff (n : Int) : (Int.tmod n 2).natAbs = 1 ↔ ¬ (2 ∣ n) := by
  have h := Int.tdiv_add_tmod n 2
  have hc := tmod_two_cases n
  constructor
  · rintro h1 ⟨c, hc2⟩
    omega
  · intro h2
    rcases hc with h0 | h1 | h1
    · exact absurd ⟨n.tdiv 2, by omega⟩ h2
    · rw [h1]; rfl
    · rw [h1]; rfl

/-- The truncated remainder `Delta % 2` of C++ is `0` exactly when `Delta`
is even. -/
theorem tmod_two_eq_zero_iff (n : Int) : Int.tmod n 2 = 0 ↔ (2 ∣ n) :=
  (Int.dvd_iff_tmod_eq_zero).symm

/-- The snake extension loop moves along one diagonal: it preserves `x - y`. -/
theorem snakeGo_sub (f g : Int → Int) (N M : Int) :
    ∀ (fuel : Nat) (x y : Int),
      (snakeGo f g N M fuel x y).1 - (snakeGo f g N M fuel x y).2 = x - y := by
  intro fuel
  induction fuel with
  | zero => intro x y; simp [snakeGo]
  | succ n ih =>
    intro x y
    simp only [snakeGo]
    split
    · have := ih (x + 1) (y + 1); omega
    · simp

/-- The snake lies on one diagonal. -/
theorem snake_sub (f g : Int → Int) (N M x y : Int) :
    (snake f g N M x y).1 - (snake f g N M x y).2 = x - y :=
  snakeGo_sub f g N M _ x y

/-- Any tuple produced by a forward-pass step comes from the overlap-check
branch: `Delta` is odd and the tuple is `(2D-1, x₀, x₀-k, x, y)` with
`(x, y)` the snake extension of `(x₀, x₀-k)`. -/
theorem fwdDiag_some {a b : Int → Int} {N M Delta D k : Int} {Vf Vb : Int → Int} {r : Snake}
    (h : (fwdDiag a b N M Delta D Vb k Vf).2 = some r) :
    (Int.tmod Delta 2).natAbs = 1 ∧
    ∃ x0, r = (2 * D - 1, x0, x0 - k,
      (snake a b N M x0 (x0 - k)).1, (snake a b N M x0 (x0 - k)).2) := by
  unfold fwdDiag at h
  dsimp only at h
  split at h
  · split at h
    · rename_i hcond
      simp at h
      exact ⟨hcond.1.1, Vf (k + 1), h.symm⟩
    · simp at h
  · split at h
    · rename_i hcond
      simp at h
      exact ⟨hcond.1.1, Vf (k - 1) + 1, h.symm⟩
    · simp at h

/-- Any tuple produced by a backward-pass step comes from the overlap-check
branch: `Delta` is even and the tuple is
`(2D, N-x, M-y, N-x₀, M-(x₀-k))` with `(x, y)` the snake extension of
`(x₀, x₀-k)` in the reversed sequences. -/
theorem bwdDiag_some {a b : Int → Int} {N M Delta D k : Int} {Vf Vb : Int → Int} {r : Snake}
    (h : (bwdDiag a b N M Delta D Vf k Vb).2 = some r) :
    Int.tmod Delta 2 = 0 ∧
    ∃ x0, r = (2 * D,
      N - (snake (fun i => a (N - i - 1)) (fun j => b (M - j - 1)) N M x0 (x0 - k)).1,
      M - (snake (fun i => a (N - i - 1)) (fun j => b (M - j - 1)) N M x0 (x0 - k)).2,
      N - x0, M - (x0 - k)) := by
  unfold bwdDiag at h
  dsimp only at h
  split at h
  · split at h
    · rename_i hcond
      simp at h
      exact ⟨hcond.1.1, Vb (k + 1), h.symm⟩
    · simp at h
  · split at h
    · rename_i hcond
      simp at h
      exact ⟨hcond.1.1, Vb (k - 1) + 1, h.symm⟩
    · simp at h

/-- A tuple coming out of a `k`-pass comes out of one of its steps. -/
theorem diagPass_some {step : Int → (Int → Int) → (Int → Int) × Option Snake}
    {P : Snake → Prop} (hstep : ∀ k V r, (step k V).2 = some r → P r) :
    ∀ (ks : List Int) (V V' : Int → Int) (r : Snake),
      diagPass step ks V = (V', some r) → P r := by
  intro ks
  induction ks with
  | nil => intro V V' r h; simp [diagPass] at h
  | cons k ks ih =>
    intro V V' r h
    simp only [diagPass] at h
    rcases hs : step k V with ⟨W, o⟩
    rw [hs] at h
    cases o with
    | some r0 =>
      simp only [Prod.mk.injEq, Option.some.injEq] at h
      have := hstep k V r0 (by rw [hs])
      rwa [h.2] at this
    | none => exact ih W V' r h

/-- A tuple coming out of the outer search loop comes out of a forward or a
backward step. -/
theorem dLoop_some {a b : Int → Int} {N M Delta : Int} {P : Snake → Prop}
    (hf : ∀ D (Vb : Int → Int) k V r, (fwdDiag a b N M Delta D Vb k V).2 = some r → P r)
    (hb : ∀ D (Vf : Int → Int) k V r, (bwdDiag a b N M Delta D Vf k V).2 = some r → P r) :
    ∀ (Ds : List Int) (Vf Vb : Int → Int) (r : Snake),
      dLoop a b N M Delta Ds Vf Vb = some r → P r := by
  intro Ds
  induction Ds with
  | nil => intro Vf Vb r h; simp [dLoop] at h
  | cons D Ds ih =>
    intro Vf Vb r h
    simp only [dLoop] at h
    rcases h1 : diagPass (fwdDiag a b N M Delta D Vb) (kList D) Vf with ⟨Vf', o1⟩
    rw [h1] at h
    cases o1 with
    | some r1 =>
      dsimp only at h
      simp only [Option.some.injEq] at h
      subst h
      exact diagPass_some (hf D Vb) _ _ _ _ h1
    | none =>
      dsimp only at h
      rcases h2 : diagPass (bwdDiag a b N M Delta D Vf') (kList D) Vb with ⟨Vb', o2⟩
      rw [h2] at h
      cases o2 with
      | some r2 =>
        dsimp only at h
        simp only [Option.some.injEq] at h
        subst h
        exact diagPass_some (hb D Vf') _ _ _ _ h2
      | none => exact ih Vf' Vb' r h

/-! ## Claim theorems: structure of the overlap returns -/

/-- **C3** (code bug): when the search loop of `FindMiddleSnake` exhausts its
bound without the two searches meeting, the function does *not* signal an
internal error — it silently returns the value-initialized tuple
`(0,0,0,0,0)` (the `return {};` at src/myers-diff.cpp:141).  For `N, M ≥ 0`
the loop always meets, so the exhaustion branch is exercised here with the
concrete input `N = -2, M = 0` (accepted by the C++ signature `int N`): the
loop body never runs, the loop exhausts, and the default tuple is returned. -/
theorem fms_exhaust_returns_default :
    findMiddleSnakeCore (fun _ => 0) (-2) (fun _ => 0) 0 (fun _ => 0) (fun _ => 0) = none ∧
    FindMiddleSnake (fun _ => 0) (-2) (fun _ => 0) 0 = (0, 0, 0, 0, 0) :=
  ⟨rfl, rfl⟩

/-- **C10**: whenever `FindMiddleSnake` returns through one of its overlap
checks, the parity of the returned edit distance equals the parity of
`N - M`: the forward check fires only for odd `N - M` and returns the odd
value `2D - 1`; the backward check fires only for even `N - M` and returns
the even value `2D`. -/
theorem findMiddleSnakeCore_parity (a : Int → Int) (N : Int) (b : Int → Int) (M : Int)
    (Vf0 Vb0 : Int → Int) (r : Snake)
    (h : findMiddleSnakeCore a N b M Vf0 Vb0 = some r) :
    r.1 % 2 = (N - M) % 2 := by
  unfold findMiddleSnakeCore at h
  refine dLoop_some (P := fun s => s.1 % 2 = (N - M) % 2) ?_ ?_ _ _ _ _ h
  · intro D Vb k V s hs
    obtain ⟨hodd, x0, hr⟩ := fwdDiag_some hs
    rw [tmod_two_natAbs_eq_one_iff] at hodd
    subst hr
    dsimp only
    omega
  · intro D Vf k V s hs
    obtain ⟨heven, x0, hr⟩ := bwdDiag_some hs
    rw [tmod_two_eq_zero_iff] at heven
    subst hr
    dsimp only
    omega

/-- Witness for C10 at a concrete input: `FindMiddleSnake([1], 1, [1], 1)`
returns `(0, 0, 0, 1, 1)` through the backward overlap check. -/
theorem findMiddleSnakeCore_parity_witness :
    ((0, 0, 0, 1, 1) : Snake).1 % 2 = ((1 : Int) - 1) % 2 :=
  findMiddleSnakeCore_parity (ofList [1]) 1 (ofList [1]) 1
    (fun _ => 0) (fun _ => 0) (0, 0, 0, 1, 1) rfl

/-- **C8**: every tuple `(D, x, y, u, v)` that `FindMiddleSnake` can return
satisfies `x - y = u - v` (snake start and end lie on the same diagonal),
hence the subdivision test `D > 1 || (x != u && y != v)` of
`ShortestEditScript` is logically equivalent to `D > 1 || (x != u)` on all
values `FindMiddleSnake` can return. -/
theorem findMiddleSnake_diag (a : Int → Int) (N : Int) (b : Int → Int) (M : Int)
    (d x y u v : Int) (h : FindMiddleSnake a N b M = (d, x, y, u, v)) :
    x - y = u - v ∧ ((1 < d ∨ (x ≠ u ∧ y ≠ v)) ↔ (1 < d ∨ x ≠ u)) := by
  have key : x - y = u - v := by
    unfold FindMiddleSnake at h
    rcases hc : findMiddleSnakeCore a N b M (fun _ => 0) (fun _ => 0) with _ | r
    · rw [hc] at h
      simp only [Option.getD_none] at h
      obtain ⟨h1, h2, h3, h4, h5⟩ := Prod.mk.injEq .. ▸ h
      omega
    · rw [hc] at h
      simp only [Option.getD_some] at h
      subst h
      refine dLoop_some
        (P := fun s => s.2.1 - s.2.2.1 = s.2.2.2.1 - s.2.2.2.2) ?_ ?_ _ _ _ _ hc
      · intro D Vb k V s hs
        obtain ⟨-, x0, hr⟩ := fwdDiag_some hs
        subst hr
        dsimp only
        have := snake_sub a b N M x0 (x0 - k)
        omega
      · intro D Vf k V s hs
        obtain ⟨-, x0, hr⟩ := bwdDiag_some hs
        subst hr
        dsimp only
        have := snake_sub (fun i => a (N - i - 1)) (fun j => b (M - j - 1)) N M x0 (x0 - k)
        omega
  exact ⟨key, by constructor <;> intro h' <;> omega⟩

/-- Witness for C8 at a concrete input: `FindMiddleSnake([1], 1, [1], 1)`
returns `(0, 0, 0, 1, 1)`. -/
theorem findMiddleSnake_diag_witness :
    (0 : Int) - 0 = 1 - 1 ∧
      ((1 < (0 : Int) ∨ ((0 : Int) ≠ 1 ∧ (0 : Int) ≠ 1)) ↔ (1 < (0 : Int) ∨ (0 : Int) ≠ 1)) :=
  findMiddleSnake_diag (ofList [1]) 1 (ofList [1]) 1 0 0 0 1 1 rfl

/-- **C6**: the base cases of `ShortestEditScript`.  With `N = M = 0` it
returns the empty multiset; with `N > 0, M = 0` it returns exactly the `N`
Delete operations at positions `offsetX, …, offsetX + N - 1`; with
`N = 0, M > 0` it returns exactly the `M` Insert operations at new indices
`offsetY, …, offsetY + M - 1`; and in particular `diff([],[])` is empty,
`diff([],[x])` is a single Insert and `diff([x],[])` is a single Delete. -/
theorem ses_base_cases :
    (∀ (fuel : Nat) (a b : Int → Int) (cx cy : Int),
      ShortestEditScript (fuel + 1) a 0 b 0 cx cy = some 0) ∧
    (∀ (fuel : Nat) (a b : Int → Int) (N cx cy : Int), 0 < N →
      ShortestEditScript (fuel + 1) a N b 0 cx cy =
        some ↑((List.range N.toNat).map fun i : Nat => ((cx + (i : Int), "del") : Int × String))) ∧
    (∀ (fuel : Nat) (a b : Int → Int) (M cx cy : Int), 0 < M →
      ShortestEditScript (fuel + 1) a 0 b M cx cy =
        some ↑((List.range M.toNat).map fun i : Nat => ((cy + (i : Int), "add") : Int × String))) ∧
    diff [] [] = some 0 ∧
    (∀ x : Int, diff [] [x] = some {((0 : Int), "add")}) ∧
    (∀ x : Int, diff [x] [] = some {((0 : Int), "del")}) := by
  refine ⟨?_, ?_, ?_, ?_, ?_, ?_⟩
  · intro fuel a b cx cy
    simp [ShortestEditScript]
  · intro fuel a b N cx cy hN
    simp [ShortestEditScript, hN, delOps, lt_irrefl]
  · intro fuel a b M cx cy hM
    simp [ShortestEditScript, hM, addOps, lt_irrefl]
  · rfl
  · intro x
    rfl
  · intro x
    rfl

/-- Witness for C6 at concrete inputs (`N = 2` deletions). -/
theorem ses_base_cases_witness :
    ShortestEditScript 1 (ofList [7, 8]) 2 (ofList []) 0 5 9 =
      some ↑((List.range (2 : Int).toNat).map fun i : Nat => (((5 : Int) + (i : Int), "del") : Int × String)) :=
  ses_base_cases.2.1 0 (ofList [7, 8]) (ofList []) 2 5 9 (by norm_num)

/-- **C5**: the two overlap checks of `FindMiddleSnake`.  Forward: when
`Δ = N - M` is odd and, at round `D`, the diagonal `k' = -(k - Δ)` lies in
`[-(D-1), D-1]` and `Vf[k] + Vb[k'] ≥ N` (where `Vf[k]` is the just-stored
snake-end `x`), the step returns `(2D-1, xᵢ, yᵢ, x, y)` — edit distance
`2D-1`, snake start `(xᵢ, yᵢ)`, snake end `(x, y)`.  Backward: when `Δ` is
even and `k' = -(k - Δ)` lies in `[-D, D]` and `Vb[k] + Vf[k'] ≥ N`, the
step returns `(2D, N-x, M-y, N-xᵢ, M-yᵢ)`. -/
theorem overlap_checks (a b : Int → Int) (N M D k : Int) (Vf Vb : Int → Int) :
    (¬ (2 ∣ (N - M)) →
      -(D - 1) ≤ -(k - (N - M)) → -(k - (N - M)) ≤ D - 1 →
      ∀ x0, x0 = (if k = -D ∨ (k ≠ D ∧ Vf (k - 1) < Vf (k + 1))
          then Vf (k + 1) else Vf (k - 1) + 1) →
      N ≤ (snake a b N M x0 (x0 - k)).1 + Vb (-(k - (N - M))) →
      (fwdDiag a b N M (N - M) D Vb k Vf).2 =
        some (2 * D - 1, x0, x0 - k,
          (snake a b N M x0 (x0 - k)).1, (snake a b N M x0 (x0 - k)).2)) ∧
    ((2 ∣ (N - M)) →
      -D ≤ -(k - (N - M)) → -(k - (N - M)) ≤ D →
      ∀ x0, x0 = (if k = -D ∨ (k ≠ D ∧ Vb (k - 1) < Vb (k + 1))
          then Vb (k + 1) else Vb (k - 1) + 1) →
      N ≤ (snake (fun i => a (N - i - 1)) (fun j => b (M - j - 1)) N M x0 (x0 - k)).1
          + Vf (-(k - (N - M))) →
      (bwdDiag a b N M (N - M) D Vf k Vb).2 =
        some (2 * D,
          N - (snake (fun i => a (N - i - 1)) (fun j => b (M - j - 1)) N M x0 (x0 - k)).1,
          M - (snake (fun i => a (N - i - 1)) (fun j => b (M - j - 1)) N M x0 (x0 - k)).2,
          N - x0, M - (x0 - k))) := by
  constructor
  · intro hodd h1 h2 x0 hx0 hsum
    subst hx0
    unfold fwdDiag
    dsimp only
    split
    · rename_i htb
      rw [if_pos htb] at hsum
      split
      · rfl
      · rename_i hng
        exact absurd ⟨⟨(tmod_two_natAbs_eq_one_iff _).mpr hodd, h1, h2⟩,
          by rw [upd_same]; exact hsum⟩ hng
    · rename_i htb
      rw [if_neg htb] at hsum
      split
      · rfl
      · rename_i hng
        exact absurd ⟨⟨(tmod_two_natAbs_eq_one_iff _).mpr hodd, h1, h2⟩,
          by rw [upd_same]; exact hsum⟩ hng
  · intro heven h1 h2 x0 hx0 hsum
    subst hx0
    unfold bwdDiag
    dsimp only
    split
    · rename_i htb
      rw [if_pos htb] at hsum
      split
      · rfl
      · rename_i hng
        exact absurd ⟨⟨(tmod_two_eq_zero_iff _).mpr heven, h1, h2⟩,
          by rw [upd_same]; exact hsum⟩ hng
    · rename_i htb
      rw [if_neg htb] at hsum
      split
      · rfl
      · rename_i hng
        exact absurd ⟨⟨(tmod_two_eq_zero_iff _).mpr heven, h1, h2⟩,
          by rw [upd_same]; exact hsum⟩ hng

/-- Witness for C5: the backward overlap check of `FindMiddleSnake([1],1,[1],1)`
at round `D = 0`, diagonal `k = 0` fires and returns `(0, 0, 0, 1, 1)`. -/
theorem overlap_checks_witness :
    (bwdDiag (ofList [1]) (ofList [1]) 1 1 ((1 : Int) - 1) 0
        (upd (upd (fun _ => 0) 1 0) 0 1) 0 (upd (fun _ => 0) 1 0)).2 =
      some (2 * 0,
        1 - (snake (fun i => ofList [1] (1 - i - 1)) (fun j => ofList [1] (1 - j - 1))
          1 1 0 (0 - 0)).1,
        1 - (snake (fun i => ofList [1] (1 - i - 1)) (fun j => ofList [1] (1 - j - 1))
          1 1 0 (0 - 0)).2,
        1 - 0, 1 - (0 - 0)) :=
  (overlap_checks (ofList [1]) (ofList [1]) 1 1 0 0
      (upd (upd (fun _ => 0) 1 0) 0 1) (upd (fun _ => 0) 1 0)).2
    (by decide) (by decide) (by decide) 0 (by decide) (by decide)

/-! ## Stateful embedding: the C++ `static` diagonal arrays

`FindMiddleSnake` declares its two diagonal arrays as function-local
`static` variables (src/myers-diff.cpp lines 76-78): they are constructed
exactly once — on the first invocation of the process, with *that*
invocation's `MAX` — and every later invocation reuses them as-is, whatever
its own `MAX` is.  The embedding below models this storage semantics
faithfully: a `V` (the C++ class of lines 7-21) carries its
construction-time bounds, every access is bounds-checked (an out-of-bounds
access on the `new int[end - start + 1]` allocation is undefined behaviour
in C++ and surfaces here as `Except.error`), and the pair of static arrays
is threaded through the calls as explicit program state. -/

/-- The C++ class `V` (lines 7-21): an allocation of `end_ - start_ + 1`
ints addressed by `i_[index - start_]`.  `data` holds the logical contents
at the user-facing indices; indices outside `[start_, end_]` are not owned
by the allocation. -/
structure V where
  start_ : Int
  end_ : Int
  data : Int → Int

/-- `v[index]` read; indices outside `[start_, end_]` are undefined
behaviour. -/
def V.read (v : V) (i : Int) : Except String Int :=
  if v.start_ ≤ i ∧ i ≤ v.end_ then .ok (v.data i) else .error "out-of-bounds"

/-- `v[index] = x`; indices outside `[start_, end_]` are undefined
behaviour. -/
def V.write (v : V) (i x : Int) : Except String V :=
  if v.start_ ≤ i ∧ i ≤ v.end_ then .ok { v with data := upd v.data i x }
  else .error "out-of-bounds"

/-- The array reads of
`if (k == -D || k != D && V[k-1] < V[k+1]) x = V[k+1]; else x = V[k-1]+1;`
with the C++ short-circuit evaluation order. -/
def tieBreakS (vf : V) (D k : Int) : Except String Int :=
  if k = -D then vf.read (k + 1)
  else if k = D then do
    let l ← vf.read (k - 1)
    pure (l + 1)
  else do
    let l ← vf.read (k - 1)
    let r ← vf.read (k + 1)
    if l < r then pure r else pure (l + 1)

/-- Stateful forward `k`-loop body (lines 90-118). -/
def fwdDiagS (a b : Int → Int) (N M Delta D : Int) (vb : V) (k : Int) (vf : V) :
    Except String (V × Option Snake) := do
  let x0 ← tieBreakS vf D k
  let y0 := x0 - k
  let p := snake a b N M x0 y0
  let vf' ← vf.write k p.1
  if (Int.tmod Delta 2).natAbs = 1 ∧ -(D - 1) ≤ -(k - Delta) ∧ -(k - Delta) ≤ D - 1 then do
    let xk ← vf'.read k
    let bk ← vb.read (-(k - Delta))
    if xk + bk ≥ N then pure (vf', some (2 * D - 1, x0, y0, p.1, p.2))
    else pure (vf', none)
  else pure (vf', none)

/-- Stateful backward `k`-loop body (lines 119-139). -/
def bwdDiagS (a b : Int → Int) (N M Delta D : Int) (vf : V) (k : Int) (vb : V) :
    Except String (V × Option Snake) := do
  let x0 ← tieBreakS vb D k
  let y0 := x0 - k
  let p := snake (fun i => a (N - i - 1)) (fun j => b (M - j - 1)) N M x0 y0
  let vb' ← vb.write k p.1
  if Int.tmod Delta 2 = 0 ∧ -D ≤ -(k - Delta) ∧ -(k - Delta) ≤ D then do
    let xk ← vb'.read k
    let fk ← vf.read (-(k - Delta))
    if xk + fk ≥ N then pure (vb', some (2 * D, N - p.1, M - p.2, N - x0, M - y0))
    else pure (vb', none)
  else pure (vb', none)

/-- Stateful `k`-pass. -/
def diagPassS (step : Int → V → Except String (V × Option Snake)) :
    List Int → V → Except String (V × Option Snake)
  | [], v => pure (v, none)
  | k :: ks, v => do
    match ← step k v with
    | (v', some r) => pure (v', some r)
    | (v', none) => diagPassS step ks v'

/-- Stateful outer search loop. -/
def dLoopS (a b : Int → Int) (N M Delta : Int) :
    List Int → V → V → Except String (V × V × Option Snake)
  | [], vf, vb => pure (vf, vb, none)
  | D :: Ds, vf, vb => do
    match ← diagPassS (fwdDiagS a b N M Delta D vb) (kList D) vf with
    | (vf', some r) => pure (vf', vb, some r)
    | (vf', none) =>
      match ← diagPassS (bwdDiagS a b N M Delta D vf') (kList D) vb with
      | (vb', some r) => pure (vf', vb', some r)
      | (vb', none) => dLoopS a b N M Delta Ds vf' vb'

/-- The process-wide state of the two `static` arrays: `none` before the
first invocation of `FindMiddleSnake`. -/
abbrev StaticArrays : Type := Option (V × V)

/-- `FindMiddleSnake` with the `static` storage semantics: the first
invocation constructs both arrays with bounds `[-MAX, MAX]` of *that*
invocation (`init` stands for the indeterminate contents of the fresh
`new int[...]` allocation); every later invocation reuses the arrays as
they are.  Returns the tuple and the updated static state. -/
def FindMiddleSnakeS (a : Int → Int) (N : Int) (b : Int → Int) (M : Int)
    (st : StaticArrays) (init : Int → Int) : Except String (Snake × StaticArrays) := do
  let MAX := M + N
  let vp := match st with
    | none => (V.mk (-MAX) MAX init, V.mk (-MAX) MAX init)
    | some p => p
  let vf1 ← vp.1.write 1 0
  let vb1 ← vp.2.write 1 0
  match ← dLoopS a b N M (N - M) (dList MAX) vf1 vb1 with
  | (vf', vb', some r) => pure (r, some (vf', vb'))
  | (vf', vb', none) => pure ((0, 0, 0, 0, 0), some (vf', vb'))

/-- `ShortestEditScript` with the `static` storage semantics threaded
through all recursive calls. -/
def ShortestEditScriptS : Nat → (Int → Int) → Int → (Int → Int) → Int → Int → Int →
    StaticArrays → (Int → Int) → Except String (Multiset (Int × String) × StaticArrays)
  | 0, _, _, _, _, _, _, _, _ => .error "fuel"
  | fuel + 1, a, N, b, M, cx, cy, st, init =>
    if N > 0 ∧ M > 0 then do
      let rs ← FindMiddleSnakeS a N b M st init
      match rs with
      | ((D, x, y, u, v), st1) =>
        if D > 1 ∨ (x ≠ u ∧ y ≠ v) then do
          let r1 ← ShortestEditScriptS fuel a x b y cx cy st1 init
          let r2 ← ShortestEditScriptS fuel (shift a u) (N - u) (shift b v) (M - v)
            (cx + u) (cy + v) r1.2 init
          pure (r1.1 + r2.1, r2.2)
        else if M > N then
          ShortestEditScriptS fuel (shift a N) (N - N) (shift b N) (M - N)
            (cx + N) (cy + N) st1 init
        else if M < N then
          ShortestEditScriptS fuel (shift a M) (N - M) (shift b M) (M - M)
            (cx + M) (cy + M) st1 init
        else pure (0, st1)
    else if N > 0 then pure (delOps N cx, st)
    else if M > 0 then pure (addOps M cy, st)
    else pure (0, st)

/-- The static state left behind by a stateful run (`none` if it failed). -/
def stateAfter {α : Type} (e : Except String (α × StaticArrays)) : StaticArrays :=
  match e with
  | .ok p => p.2
  | .error _ => none

/-- The value produced by a stateful run, forgetting the state. -/
def valueOf {α : Type} (e : Except String (α × StaticArrays)) : Option α :=
  match e with
  | .ok p => some p.1
  | .error _ => none

/-- The construction-time bounds of the two static arrays after a run. -/
def boundsAfter {α : Type} (e : Except String (α × StaticArrays)) :
    Option (Int × Int × Int × Int) :=
  match e with
  | .ok (_, some (vf, vb)) => some (vf.start_, vf.end_, vb.start_, vb.end_)
  | _ => none

/-- **C4** (code bug): the diagonal arrays are *not* freshly allocated per
invocation of `FindMiddleSnake`.  They are function-local `static`s
(lines 76-78): the first invocation (`N = M = 1`) allocates both with its
own `MAX = 2`, i.e. bounds `[-2, 2]`; a later invocation with
`N = 3, M = 2` (own `MAX = 5`, needing `[-5, 5]`) reuses those same arrays
and runs off their ends (undefined behaviour), whereas the same invocation
with freshly allocated arrays succeeds and returns `(5, 1, 2, 1, 2)`. -/
theorem static_arrays_reused_across_calls :
    boundsAfter (FindMiddleSnakeS (ofList [1]) 1 (ofList [1]) 1 none (fun _ => 0)) =
      some (-2, 2, -2, 2) ∧
    FindMiddleSnakeS (ofList [1, 2, 3]) 3 (ofList [4, 5]) 2
        (stateAfter (FindMiddleSnakeS (ofList [1]) 1 (ofList [1]) 1 none (fun _ => 0)))
        (fun _ => 0) = .error "out-of-bounds" ∧
    valueOf (FindMiddleSnakeS (ofList [1, 2, 3]) 3 (ofList [4, 5]) 2 none (fun _ => 0)) =
      some (5, 1, 2, 1, 2) :=
  ⟨rfl, rfl, rfl⟩

/-- **C7** (code bug): a call of the diff entry point is *not* independent
of the diff invocations that ran earlier in the same process.  A fresh
process computing `ShortestEditScript([1,2,3], 3, [4,5], 2, 0, 0)` yields
the five operations; the identical call made after an earlier
`ShortestEditScript([1], 1, [1], 1, 0, 0)` in the same process instead runs
the static diagonal arrays (allocated for the first call's `MAX = 2`) out
of bounds — undefined behaviour instead of identical output. -/
theorem diff_not_history_independent :
    valueOf (ShortestEditScriptS 6 (ofList [1, 2, 3]) 3 (ofList [4, 5]) 2 0 0
        none (fun _ => 0)) =
      some ↑[((0 : Int), "add"), (1, "add"), (0, "del"), (1, "del"), (2, "del")] ∧
    ShortestEditScriptS 6 (ofList [1, 2, 3]) 3 (ofList [4, 5]) 2 0 0
        (stateAfter (ShortestEditScriptS 6 (ofList [1]) 1 (ofList [1]) 1 0 0
          none (fun _ => 0)))
        (fun _ => 0) = .error "out-of-bounds" := by
  exact ⟨rfl, rfl⟩

/-! ## Edit distance and longest common subsequence

The reference theory the remaining claims are stated against: the
insertion/deletion edit distance `ed` and the longest-common-subsequence
length `lcs` (the standard recurrences, i.e. exactly what a brute-force
checker would compute). -/

/-- Insertion/deletion edit distance between two lists. -/
def ed : List Int → List Int → Nat
  | [], B => B.length
  | a :: A, [] => (a :: A).length
  | a :: A, b :: B => if a = b then ed A B else 1 + min (ed A (b :: B)) (ed (a :: A) B)
termination_by A B => A.length + B.length
decreasing_by
  all_goals simp [List.length_cons]
  all_goals omega

/-- Longest-common-subsequence length of two lists. -/
def lcs : List Int → List Int → Nat
  | [], _ => 0
  | _ :: _, [] => 0
  | a :: A, b :: B => if a = b then lcs A B + 1 else max (lcs (a :: A) B) (lcs A (b :: B))
termination_by A B => A.length + B.length
decreasing_by
  all_goals simp [List.length_cons]
  all_goals omega

theorem ed_nil_left (B : List Int) : ed [] B = B.length := by simp [ed]

theorem ed_nil_right (A : List Int) : ed A [] = A.length := by
  cases A <;> simp [ed]

theorem ed_cons_cons (a b : Int) (A B : List Int) :
    ed (a :: A) (b :: B) = if a = b then ed A B else 1 + min (ed A (b :: B)) (ed (a :: A) B) := by
  rw [ed]

theorem ed_cons_same (a : Int) (A B : List Int) : ed (a :: A) (a :: B) = ed A B := by
  rw [ed_cons_cons]; simp

/-- The four one-sided Lipschitz bounds for `ed`, proved together by strong
induction on the total length. -/
theorem ed_lip : ∀ (n : Nat) (A B : List Int), A.length + B.length ≤ n →
    (∀ a, ed (a :: A) B ≤ 1 + ed A B) ∧
    (∀ b, ed A (b :: B) ≤ 1 + ed A B) ∧
    (∀ a, ed A B ≤ 1 + ed (a :: A) B) ∧
    (∀ b, ed A B ≤ 1 + ed A (b :: B)) := by
  intro n
  induction n with
  | zero =>
    intro A B h
    have hA : A = [] := by cases A <;> simp_all
    have hB : B = [] := by cases B <;> simp_all
    subst hA; subst hB
    refine ⟨fun a => ?_, fun b => ?_, fun a => ?_, fun b => ?_⟩ <;>
      simp [ed_nil_left, ed_nil_right]
  | succ n ih =>
    intro A B h
    refine ⟨fun a => ?_, fun b => ?_, fun a => ?_, fun b => ?_⟩
    · -- ed (a :: A) B ≤ 1 + ed A B
      cases B with
      | nil => simp [ed_nil_right]; omega
      | cons b B' =>
        rw [ed_cons_cons]
        split
        · have := (ih A B' (by simp at h ⊢; omega)).2.2.2 b
          omega
        · have : min (ed A (b :: B')) (ed (a :: A) B') ≤ ed A (b :: B') :=
            Nat.min_le_left _ _
          omega
    · -- ed A (b :: B) ≤ 1 + ed A B
      cases A with
      | nil => simp [ed_nil_left]; omega
      | cons a A' =>
        rw [ed_cons_cons]
        split
        · have := (ih A' B (by simp at h ⊢; omega)).2.2.1 a
          omega
        · have : min (ed A' (b :: B)) (ed (a :: A') B) ≤ ed (a :: A') B :=
            Nat.min_le_right _ _
          omega
    · -- ed A B ≤ 1 + ed (a :: A) B
      cases B with
      | nil => simp [ed_nil_right]; omega
      | cons b B' =>
        rw [ed_cons_cons]
        split
        · have := (ih A B' (by simp at h ⊢; omega)).2.1 b
          omega
        · have h1 := (ih A B' (by simp at h ⊢; omega)).2.1 b
          have h2 := (ih A B' (by simp at h ⊢; omega)).2.2.1 a
          have h3 : ed A (b :: B') ≤ 1 + (1 + ed (a :: A) B') := by
            calc ed A (b :: B') ≤ 1 + ed A B' := h1
            _ ≤ 1 + (1 + ed (a :: A) B') := by
                have := (ih A B' (by simp at h ⊢; omega)).2.2.1 a
                omega
          omega
    · -- ed A B ≤ 1 + ed A (b :: B)
      cases A with
      | nil => simp [ed_nil_left]; omega
      | cons a A' =>
        rw [ed_cons_cons]
        split
        · have := (ih A' B (by simp at h ⊢; omega)).1 a
          omega
        · have h1 := (ih A' B (by simp at h ⊢; omega)).1 a
          have h2 := (ih A' B (by simp at h ⊢; omega)).2.2.2 b
          have h3 : ed (a :: A') B ≤ 1 + (1 + ed A' (b :: B)) := by
            calc ed (a :: A') B ≤ 1 + ed A' B := h1
            _ ≤ 1 + (1 + ed A' (b :: B)) := by omega
          omega

theorem ed_cons_left_le (a : Int) (A B : List Int) : ed (a :: A) B ≤ 1 + ed A B :=
  (ed_lip (A.length + B.length) A B le_rfl).1 a

theorem ed_cons_right_le (b : Int) (A B : List Int) : ed A (b :: B) ≤ 1 + ed A B :=
  (ed_lip (A.length + B.length) A B le_rfl).2.1 b

theorem ed_le_cons_left (a : Int) (A B : List Int) : ed A B ≤ 1 + ed (a :: A) B :=
  (ed_lip (A.length + B.length) A B le_rfl).2.2.1 a

theorem ed_le_cons_right (b : Int) (A B : List Int) : ed A B ≤ 1 + ed A (b :: B) :=
  (ed_lip (A.length + B.length) A B le_rfl).2.2.2 b

/-- `ed` does not decrease when one element is prepended to each list. -/
theorem ed_le_cons_cons (a b : Int) (A B : List Int) : ed A B ≤ ed (a :: A) (b :: B) := by
  rw [ed_cons_cons]
  split
  · rename_i hab; subst hab; exact le_rfl
  · have h1 := ed_le_cons_right b A B
    have h2 := ed_le_cons_left a A B
    have := Nat.min_le_left (ed A (b :: B)) (ed (a :: A) B)
    have := Nat.min_le_right (ed A (b :: B)) (ed (a :: A) B)
    rcases Nat.le_total (ed A (b :: B)) (ed (a :: A) B) with hm | hm <;> omega

theorem ed_eq_zero_iff (A B : List Int) : ed A B = 0 ↔ A = B := by
  induction A, B using ed.induct with
  | case1 B => simp [ed_nil_left, eq_comm, List.length_eq_zero]
  | case2 a A => simp [ed_nil_right]
  | case3 A x B ih => rw [ed_cons_same]; simp [ih]
  | case4 a A b B hne ih1 ih2 =>
    rw [ed_cons_cons, if_neg hne]
    simp [hne]

theorem lcs_le_left (A B : List Int) : lcs A B ≤ A.length := by
  induction A, B using lcs.induct with
  | case1 B => simp [lcs]
  | case2 a A => simp [lcs]
  | case3 A x B ih => simp only [lcs, if_pos rfl]; simp; omega
  | case4 a A b B hne ih1 ih2 =>
    simp only [lcs, if_neg hne]
    simp at ih1 ih2 ⊢
    omega

theorem lcs_le_right (A B : List Int) : lcs A B ≤ B.length := by
  induction A, B using lcs.induct with
  | case1 B => simp [lcs]
  | case2 a A => simp [lcs]
  | case3 A x B ih => simp only [lcs, if_pos rfl]; simp; omega
  | case4 a A b B hne ih1 ih2 =>
    simp only [lcs, if_neg hne]
    simp at ih1 ih2 ⊢
    omega

/-- The duality between the edit distance and the LCS:
`ed A B = |A| + |B| - 2·lcs A B`. -/
theorem ed_eq_lcs (A B : List Int) :
    (ed A B : Int) = A.length + B.length - 2 * lcs A B := by
  induction A, B using ed.induct with
  | case1 B => simp [ed_nil_left, lcs]
  | case2 a A => simp [ed_nil_right, lcs]
  | case3 A x B ih =>
    rw [ed_cons_same]
    simp only [lcs, if_pos rfl]
    push_cast at ih ⊢
    simp [List.length_cons]
    omega
  | case4 a A b B hne ih1 ih2 =>
    rw [ed_cons_cons, if_neg hne]
    simp only [lcs, if_neg hne]
    have l1 := lcs_le_left A (b :: B)
    have l2 := lcs_le_right (a :: A) B
    have l3 := lcs_le_left (a :: A) B
    have l4 := lcs_le_right A (b :: B)
    simp only [List.length_cons] at *
    rcases Nat.le_total (ed A (b :: B)) (ed (a :: A) B) with hm | hm <;>
      rcases Nat.le_total (lcs (a :: A) B) (lcs A (b :: B)) with hl | hl <;>
      push_cast <;> omega

theorem two_lcs_le (A B : List Int) : 2 * lcs A B ≤ A.length + B.length := by
  have := lcs_le_left A B
  have := lcs_le_right A B
  omega

/-- `ed` is at least the length difference and at most the length sum. -/
theorem ed_bounds (A B : List Int) :
    (A.length : Int) - B.length ≤ ed A B ∧ (B.length : Int) - A.length ≤ ed A B ∧
      (ed A B : Int) ≤ A.length + B.length := by
  have h := ed_eq_lcs A B
  have := lcs_le_left A B
  have := lcs_le_right A B
  omega

/-- `lcs` computes the length of a longest common subsequence: existence. -/
theorem lcs_exists (A B : List Int) :
    ∃ C : List Int, C.Sublist A ∧ C.Sublist B ∧ C.length = lcs A B := by
  induction A, B using lcs.induct with
  | case1 B => exact ⟨[], by simp [lcs]⟩
  | case2 a A => exact ⟨[], by simp [lcs]⟩
  | case3 A x B ih =>
    obtain ⟨C, h1, h2, h3⟩ := ih
    exact ⟨x :: C, by simp [List.cons_sublist_cons, h1],
      by simp [List.cons_sublist_cons, h2], by simp [lcs, h3]⟩
  | case4 a A b B hne ih1 ih2 =>
    simp only [lcs, if_neg hne]
    rcases Nat.le_total (lcs (a :: A) B) (lcs A (b :: B)) with hl | hl
    · obtain ⟨C, h1, h2, h3⟩ := ih2
      exact ⟨C, h1.cons a, h2, by rw [Nat.max_eq_right hl]; exact h3⟩
    · obtain ⟨C, h1, h2, h3⟩ := ih1
      exact ⟨C, h1, h2.cons b, by rw [Nat.max_eq_left hl]; exact h3⟩

/-- `lcs` computes the length of a longest common subsequence: maximality. -/
theorem lcs_ub (A B C : List Int) (hA : C.Sublist A) (hB : C.Sublist B) :
    C.length ≤ lcs A B := by
  induction A, B using lcs.induct generalizing C with
  | case1 B =>
    have : C = [] := List.sublist_nil.mp hA
    simp [this]
  | case2 a A =>
    have : C = [] := List.sublist_nil.mp hB
    simp [this]
  | case3 A x B ih =>
    simp only [lcs, if_pos rfl]
    cases hA with
    | cons _ hA' =>
      cases hB with
      | cons _ hB' => exact le_trans (ih _ hA' hB') (Nat.le_succ _)
      | cons₂ _ hB' =>
        have := ih _ (List.sublist_of_cons_sublist hA') hB'
        simpa using Nat.succ_le_succ this
    | cons₂ _ hA' =>
      cases hB with
      | cons _ hB' =>
        have := ih _ hA' (List.sublist_of_cons_sublist hB')
        simpa using Nat.succ_le_succ this
      | cons₂ _ hB' =>
        have := ih _ hA' hB'
        simpa using Nat.succ_le_succ this
  | case4 a A b B hne ih1 ih2 =>
    simp only [lcs, if_neg hne]
    cases hB with
    | cons _ hB' => exact le_trans (ih1 _ hA hB') (le_max_left _ _)
    | cons₂ _ hB' =>
      cases hA with
      | cons _ hA' =>
        exact le_trans (ih2 _ hA' (List.cons_sublist_cons.mpr hB')) (le_max_right _ _)
      | cons₂ _ hA' => exact absurd rfl hne

theorem lcs_reverse (A B : List Int) : lcs A.reverse B.reverse = lcs A B := by
  have h1 : lcs A B ≤ lcs A.reverse B.reverse := by
    obtain ⟨C, hA, hB, hC⟩ := lcs_exists A B
    have := lcs_ub A.reverse B.reverse C.reverse hA.reverse hB.reverse
    simpa [hC] using this
  have h2 : lcs A.reverse B.reverse ≤ lcs A B := by
    obtain ⟨C, hA, hB, hC⟩ := lcs_exists A.reverse B.reverse
    have hA' : C.reverse.Sublist A := by simpa using hA.reverse
    have hB' : C.reverse.Sublist B := by simpa using hB.reverse
    have := lcs_ub A B C.reverse hA' hB'
    simpa [hC] using this
  omega

theorem ed_reverse (A B : List Int) : ed A.reverse B.reverse = ed A B := by
  have h1 := ed_eq_lcs A B
  have h2 := ed_eq_lcs A.reverse B.reverse
  rw [lcs_reverse] at h2
  simp only [List.length_reverse] at h2
  omega

/-- Inserting a whole list on the right costs at most its length. -/
theorem ed_le_append_right (A B1 B2 : List Int) :
    ed A (B1 ++ B2) ≤ B1.length + ed A B2 := by
  induction B1 with
  | nil => simp
  | cons b B1 ih =>
    have := ed_cons_right_le b A (B1 ++ B2)
    simp only [List.cons_append, List.length_cons]
    omega

theorem ed_le_append_left (A1 A2 B : List Int) :
    ed (A1 ++ A2) B ≤ A1.length + ed A2 B := by
  induction A1 with
  | nil => simp
  | cons a A1 ih =>
    have := ed_cons_left_le a (A1 ++ A2) B
    simp only [List.cons_append, List.length_cons]
    omega

/-- Subadditivity of `ed` under concatenation. -/
theorem ed_append_le (A1 A2 B1 B2 : List Int) :
    ed (A1 ++ A2) (B1 ++ B2) ≤ ed A1 B1 + ed A2 B2 := by
  induction A1, B1 using ed.induct with
  | case1 B1 =>
    have := ed_le_append_right (A2) B1 B2
    simp only [List.nil_append, ed_nil_left]
    omega
  | case2 a A1 =>
    have := ed_le_append_left (a :: A1) A2 B2
    simp only [List.nil_append, ed_nil_right]
    simpa using this
  | case3 A1 x B1 ih =>
    simp only [List.cons_append]
    rw [ed_cons_same, ed_cons_same]
    exact ih
  | case4 a A1 b B1 hne ih1 ih2 =>
    simp only [List.cons_append]
    rw [ed_cons_cons, if_neg hne]
    rw [ed_cons_cons (A := A1) (B := B1), if_neg hne]
    have h1 : ed (A1 ++ A2) (b :: B1 ++ B2) ≤ ed A1 (b :: B1) + ed A2 B2 := by
      simpa using ih1
    have h2 : ed (a :: A1 ++ A2) (B1 ++ B2) ≤ ed (a :: A1) B1 + ed A2 B2 := by
      simpa using ih2
    have := Nat.min_le_left (ed A1 (b :: B1)) (ed (a :: A1) B1)
    have := Nat.min_le_right (ed A1 (b :: B1)) (ed (a :: A1) B1)
    rcases Nat.le_total (ed A1 (b :: B1)) (ed (a :: A1) B1) with hm | hm <;>
      rcases Nat.le_total (ed (A1 ++ A2) (b :: B1 ++ B2)) (ed (a :: A1 ++ A2) (B1 ++ B2))
        with hm2 | hm2 <;>
      simp only [List.cons_append] at * <;> omega

/-- Any intermediate budget `t ≤ ed A B` admits a split of both lists whose
halves cost at most `t` and `ed A B - t`. -/
theorem ed_split (A B : List Int) (t : Nat) (ht : t ≤ ed A B) :
    ∃ A1 A2 B1 B2, A = A1 ++ A2 ∧ B = B1 ++ B2 ∧
      ed A1 B1 ≤ t ∧ ed A2 B2 + t ≤ ed A B := by
  induction A, B using ed.induct generalizing t with
  | case1 B =>
    refine ⟨[], [], B.take t, B.drop t, by simp, by simp, ?_, ?_⟩
    · simp only [ed_nil_left, List.length_take]
      omega
    · simp only [ed_nil_left, List.length_drop]
      simp only [ed_nil_left] at ht
      omega
  | case2 a A =>
    refine ⟨(a :: A).take t, (a :: A).drop t, [], [], by simp, by simp, ?_, ?_⟩
    · rw [ed_nil_right, List.length_take]
      omega
    · simp only [ed_nil_right, List.length_drop]
      simp only [ed_nil_right] at ht
      omega
  | case3 A x B ih =>
    rcases Nat.eq_zero_or_pos t with ht0 | ht0
    · exact ⟨[], x :: A, [], x :: B, rfl, rfl, by simp [ed_nil_left, ht0],
        by simp [ht0]⟩
    · rw [ed_cons_same] at ht ⊢
      obtain ⟨A1, A2, B1, B2, hA, hB, h1, h2⟩ := ih t ht
      exact ⟨x :: A1, A2, x :: B1, B2, by simp [hA], by simp [hB],
        by rw [ed_cons_same]; exact h1, h2⟩
  | case4 a A b B hne ih1 ih2 =>
    rcases Nat.eq_zero_or_pos t with ht0 | ht0
    · exact ⟨[], a :: A, [], b :: B, rfl, rfl, by simp [ed_nil_left, ht0],
        by simp [ht0]⟩
    · rw [ed_cons_cons, if_neg hne] at ht ⊢
      rcases Nat.le_total (ed A (b :: B)) (ed (a :: A) B) with hm | hm
      · -- min is ed A (b :: B): delete a first
        have hmin : min (ed A (b :: B)) (ed (a :: A) B) = ed A (b :: B) :=
          Nat.min_eq_left hm
        rw [hmin] at ht ⊢
        obtain ⟨A1, A2, B1, B2, hA, hB, h1, h2⟩ := ih1 (t - 1) (by omega)
        refine ⟨a :: A1, A2, B1, B2, by simp [hA], hB, ?_, by omega⟩
        have := ed_cons_left_le a A1 B1
        omega
      · have hmin : min (ed A (b :: B)) (ed (a :: A) B) = ed (a :: A) B :=
          Nat.min_eq_right hm
        rw [hmin] at ht ⊢
        obtain ⟨A1, A2, B1, B2, hA, hB, h1, h2⟩ := ih2 (t - 1) (by omega)
        refine ⟨A1, A2, b :: B1, B2, hA, by simp [hB], ?_, by omega⟩
        have := ed_cons_right_le b A1 B1
        omega

/-! ## Sequences as lists, and the two potential functions

`fdist x y` is the edit distance from the corner `(0,0)` to the point
`(x, y)` of the edit graph, extended beyond the grid `[0,N]×[0,M]` by
charging one non-diagonal move per unit of overshoot (the search of
`FindMiddleSnake` walks such virtual points).  `hdist x y` is the distance
from `(x, y)` to the far corner `(N, M)`, extended likewise below `0`. -/

/-- The first `n` elements of the sequence `a` as a list (empty for `n ≤ 0`). -/
def listOfF (a : Int → Int) (n : Int) : List Int :=
  (List.range n.toNat).map fun i : Nat => a (i : Int)

@[simp] theorem listOfF_length (a : Int → Int) (n : Int) :
    (listOfF a n).length = n.toNat := by
  rw [listOfF, List.length_map, List.length_range]

@[simp] theorem listOfF_nonpos (a : Int → Int) {n : Int} (h : n ≤ 0) :
    listOfF a n = [] := by
  have : n.toNat = 0 := by omega
  simp [listOfF, this]

theorem listOfF_succ (a : Int → Int) {n : Int} (h : 0 ≤ n) :
    listOfF a (n + 1) = listOfF a n ++ [a n] := by
  have h1 : (n + 1).toNat = n.toNat + 1 := by omega
  simp only [listOfF, h1, List.range_succ, List.map_append, List.map_cons, List.map_nil]
  congr 2
  simp [Int.toNat_of_nonneg h]

theorem listOfF_cons (a : Int → Int) {n : Int} (h : 0 < n) :
    listOfF a n = a 0 :: listOfF (shift a 1) (n - 1) := by
  have h1 : n.toNat = (n - 1).toNat + 1 := by omega
  simp only [listOfF, h1, List.range_succ_eq_map, List.map_cons, List.map_map]
  congr 1
  apply List.map_congr_left
  intro i _
  simp only [Function.comp_apply, shift]
  congr 1
  omega

theorem shift_shift (a : Int → Int) (u v : Int) : shift (shift a u) v = shift a (u + v) := by
  funext i
  simp [shift]
  congr 1
  omega

theorem shift_zero (a : Int → Int) : shift a 0 = a := by
  funext i
  simp [shift]

/-- The elements `a x, a (x+1), …, a (N-1)` (clamping `x` into `[0, N]`). -/
def sufList (a : Int → Int) (N x : Int) : List Int :=
  listOfF (shift a (max x 0)) (N - max x 0)

theorem sufList_cons (a : Int → Int) {N x : Int} (h0 : 0 ≤ x) (hN : x < N) :
    sufList a N x = a x :: sufList a N (x + 1) := by
  unfold sufList
  rw [max_eq_left h0, max_eq_left (by omega)]
  rw [listOfF_cons (shift a x) (by omega)]
  rw [shift_shift]
  rw [show N - (x + 1) = N - x - 1 by omega]
  congr 1
  simp [shift]

@[simp] theorem sufList_top (a : Int → Int) {N x : Int} (h : N ≤ x) :
    sufList a N x = [] := by
  unfold sufList
  apply listOfF_nonpos
  omega

theorem sufList_neg (a : Int → Int) {N x : Int} (h : x ≤ 0) :
    sufList a N x = sufList a N 0 := by
  unfold sufList
  rw [max_eq_right h]
  norm_num

theorem sufList_zero (a : Int → Int) (N : Int) : sufList a N 0 = listOfF a N := by
  unfold sufList
  simp [shift_zero]

/-- Splitting `listOfF` at `0 ≤ x ≤ n`. -/
theorem listOfF_append (a : Int → Int) {n x : Int} (h0 : 0 ≤ x) (hn : x ≤ n) :
    listOfF a n = listOfF a x ++ sufList a n x := by
  obtain ⟨m, hm⟩ : ∃ m : Nat, n = x + m := ⟨(n - x).toNat, by omega⟩
  subst hm
  clear hn
  induction m with
  | zero => simpa using (sufList_top a (x := x) le_rfl).symm
  | succ m ih =>
    have hcast : x + ((m : Nat) + 1 : Nat) = (x + m) + 1 := by push_cast; ring
    rw [hcast]
    rw [listOfF_succ a (by omega)]
    rw [ih]
    rw [List.append_assoc]
    congr 1
    unfold sufList
    rw [max_eq_left h0]
    rw [show x + (m : Int) + 1 - x = (m : Int) + 1 by ring]
    rw [show x + (m : Int) - x = (m : Int) by ring]
    rw [listOfF_succ (shift a x) (by positivity)]
    congr 2

/-- Forward potential: edit distance from `(0,0)` to `(x,y)`, with overshoot
beyond `(N,M)` charged one move per unit.  The list arguments are the
reversed prefixes, so that extending a prefix is a `cons`. -/
def fdist (a b : Int → Int) (N M x y : Int) : Nat :=
  ed (listOfF a (min x N)).reverse (listOfF b (min y M)).reverse +
    ((x - N).toNat + (y - M).toNat)

/-- Backward potential: edit distance from `(x,y)` to `(N,M)`, with
overshoot below `(0,0)` charged one move per unit. -/
def hdist (a b : Int → Int) (N M x y : Int) : Nat :=
  ed (sufList a N x) (sufList b M y) + ((-x).toNat + (-y).toNat)

theorem fdist_zero (a b : Int → Int) {N M : Int} (hN : 0 ≤ N) (hM : 0 ≤ M) :
    fdist a b N M 0 0 = 0 := by
  unfold fdist
  rw [min_eq_left hN, min_eq_left hM]
  simp [ed_nil_left]
  omega

theorem fdist_full (a b : Int → Int) {N M : Int} (hN : 0 ≤ N) (hM : 0 ≤ M) :
    fdist a b N M N M = ed (listOfF a N) (listOfF b M) := by
  unfold fdist
  rw [min_self, min_self, ed_reverse]
  simp

theorem hdist_zero (a b : Int → Int) (N M : Int) :
    hdist a b N M 0 0 = ed (listOfF a N) (listOfF b M) := by
  unfold hdist
  rw [sufList_zero, sufList_zero]
  simp

theorem hdist_full (a b : Int → Int) {N M : Int} (hN : 0 ≤ N) (hM : 0 ≤ M) :
    hdist a b N M N M = 0 := by
  unfold hdist
  rw [sufList_top a le_rfl, sufList_top b le_rfl]
  simp [ed_nil_left]
  omega

/-- For in-range coordinates `hdist` is the edit distance of the suffix
sub-problem. -/
theorem hdist_eq_sub (a b : Int → Int) {N M x y : Int} (hx : 0 ≤ x) (hy : 0 ≤ y) :
    hdist a b N M x y =
      ed (listOfF (shift a x) (N - x)) (listOfF (shift b y) (M - y)) := by
  unfold hdist sufList
  rw [max_eq_left hx, max_eq_left hy]
  simp [hx, hy]

theorem fdist_hstep_le (a b : Int → Int) {N : Int} (M : Int) {x : Int} (y : Int)
    (hN : 0 ≤ N) (hx : 0 ≤ x) :
    fdist a b N M (x + 1) y ≤ fdist a b N M x y + 1 := by
  unfold fdist
  rcases le_or_lt (x + 1) N with hc | hc
  · rw [min_eq_left hc, min_eq_left (show x ≤ N by omega)]
    rw [listOfF_succ a hx]
    simp only [List.reverse_append, List.reverse_cons, List.reverse_nil, List.nil_append,
      List.singleton_append]
    have := ed_cons_left_le (a x) (listOfF a x).reverse (listOfF b (min y M)).reverse
    omega
  · rw [min_eq_right (show N ≤ x + 1 by omega), min_eq_right (show N ≤ x by omega)]
    omega

theorem fdist_le_hstep (a b : Int → Int) {N : Int} (M : Int) {x : Int} (y : Int)
    (hN : 0 ≤ N) (hx : 0 ≤ x) :
    fdist a b N M x y ≤ fdist a b N M (x + 1) y + 1 := by
  unfold fdist
  rcases le_or_lt (x + 1) N with hc | hc
  · rw [min_eq_left hc, min_eq_left (show x ≤ N by omega)]
    rw [listOfF_succ a hx]
    simp only [List.reverse_append, List.reverse_cons, List.reverse_nil, List.nil_append,
      List.singleton_append]
    have := ed_le_cons_left (a x) (listOfF a x).reverse (listOfF b (min y M)).reverse
    omega
  · rw [min_eq_right (show N ≤ x + 1 by omega), min_eq_right (show N ≤ x by omega)]
    omega

theorem fdist_vstep_le (a b : Int → Int) (N : Int) {M : Int} (x : Int) {y : Int}
    (hM : 0 ≤ M) (hy : 0 ≤ y) :
    fdist a b N M x (y + 1) ≤ fdist a b N M x y + 1 := by
  unfold fdist
  rcases le_or_lt (y + 1) M with hc | hc
  · rw [min_eq_left hc, min_eq_left (show y ≤ M by omega)]
    rw [listOfF_succ b hy]
    simp only [List.reverse_append, List.reverse_cons, List.reverse_nil, List.nil_append,
      List.singleton_append]
    have := ed_cons_right_le (b y) (listOfF a (min x N)).reverse (listOfF b y).reverse
    omega
  · rw [min_eq_right (show M ≤ y + 1 by omega), min_eq_right (show M ≤ y by omega)]
    omega

theorem fdist_le_vstep (a b : Int → Int) (N : Int) {M : Int} (x : Int) {y : Int}
    (hM : 0 ≤ M) (hy : 0 ≤ y) :
    fdist a b N M x y ≤ fdist a b N M x (y + 1) + 1 := by
  unfold fdist
  rcases le_or_lt (y + 1) M with hc | hc
  · rw [min_eq_left hc, min_eq_left (show y ≤ M by omega)]
    rw [listOfF_succ b hy]
    simp only [List.reverse_append, List.reverse_cons, List.reverse_nil, List.nil_append,
      List.singleton_append]
    have := ed_le_cons_right (b y) (listOfF a (min x N)).reverse (listOfF b y).reverse
    omega
  · rw [min_eq_right (show M ≤ y + 1 by omega), min_eq_right (show M ≤ y by omega)]
    omega

/-- A matching in-grid diagonal move keeps `fdist` unchanged. -/
theorem fdist_match (a b : Int → Int) {N M x y : Int}
    (hx : 0 ≤ x) (hxN : x < N) (hy : 0 ≤ y) (hyM : y < M) (hab : a x = b y) :
    fdist a b N M (x + 1) (y + 1) = fdist a b N M x y := by
  unfold fdist
  rw [min_eq_left (show x + 1 ≤ N by omega), min_eq_left (show y + 1 ≤ M by omega),
    min_eq_left (show x ≤ N by omega), min_eq_left (show y ≤ M by omega)]
  rw [listOfF_succ a hx, listOfF_succ b hy]
  simp only [List.reverse_append, List.reverse_cons, List.reverse_nil, List.nil_append,
    List.singleton_append]
  rw [hab, ed_cons_same]
  have h1 : (x + 1 - N).toNat = (x - N).toNat := by omega
  have h2 : (y + 1 - M).toNat = (y - M).toNat := by omega
  rw [h1, h2]

/-- `fdist` is monotone along a diagonal. -/
theorem fdist_diag_le (a b : Int → Int) {N M x y : Int}
    (hN : 0 ≤ N) (hM : 0 ≤ M) (hx : 0 ≤ x) (hy : 0 ≤ y) :
    fdist a b N M x y ≤ fdist a b N M (x + 1) (y + 1) := by
  unfold fdist
  rcases le_or_lt (x + 1) N with hcx | hcx <;> rcases le_or_lt (y + 1) M with hcy | hcy
  · rw [min_eq_left hcx, min_eq_left (show x ≤ N by omega),
      min_eq_left hcy, min_eq_left (show y ≤ M by omega)]
    rw [listOfF_succ a hx, listOfF_succ b hy]
    simp only [List.reverse_append, List.reverse_cons, List.reverse_nil, List.nil_append,
      List.singleton_append]
    have := ed_le_cons_cons (a x) (b y) (listOfF a x).reverse (listOfF b y).reverse
    omega
  · rw [min_eq_left hcx, min_eq_left (show x ≤ N by omega),
      min_eq_right (show M ≤ y + 1 by omega), min_eq_right (show M ≤ y by omega)]
    rw [listOfF_succ a hx]
    simp only [List.reverse_append, List.reverse_cons, List.reverse_nil, List.nil_append,
      List.singleton_append]
    have := ed_le_cons_left (a x) (listOfF a x).reverse (listOfF b M).reverse
    omega
  · rw [min_eq_right (show N ≤ x + 1 by omega), min_eq_right (show N ≤ x by omega),
      min_eq_left hcy, min_eq_left (show y ≤ M by omega)]
    rw [listOfF_succ b hy]
    simp only [List.reverse_append, List.reverse_cons, List.reverse_nil, List.nil_append,
      List.singleton_append]
    have := ed_le_cons_right (b y) (listOfF a N).reverse (listOfF b y).reverse
    omega
  · rw [min_eq_right (show N ≤ x + 1 by omega), min_eq_right (show N ≤ x by omega),
      min_eq_right (show M ≤ y + 1 by omega), min_eq_right (show M ≤ y by omega)]
    omega

/-- `fdist` is monotone along a diagonal (iterated form). -/
theorem fdist_diag_chain (a b : Int → Int) {N M x1 y1 x2 y2 : Int}
    (hN : 0 ≤ N) (hM : 0 ≤ M) (hx : 0 ≤ x1) (hy : 0 ≤ y1)
    (hd : x2 - x1 = y2 - y1) (hle : x1 ≤ x2) :
    fdist a b N M x1 y1 ≤ fdist a b N M x2 y2 := by
  obtain ⟨t, ht⟩ : ∃ t : Nat, x2 = x1 + t := ⟨(x2 - x1).toNat, by omega⟩
  have hy2 : y2 = y1 + t := by omega
  subst ht; subst hy2
  clear hd hle
  induction t with
  | zero => simp
  | succ t ih =>
    have step := fdist_diag_le a b (x := x1 + t) (y := y1 + t) hN hM (by omega) (by omega)
    have e1 : x1 + ((t : Nat) + 1 : Nat) = x1 + t + 1 := by push_cast; ring
    have e2 : y1 + ((t : Nat) + 1 : Nat) = y1 + t + 1 := by push_cast; ring
    rw [e1, e2]
    omega

/-- The DP recurrence of `fdist` at an in-grid point with distinct heads. -/
theorem fdist_rec_nomatch (a b : Int → Int) {N M x y : Int}
    (hx : 0 < x) (hxN : x ≤ N) (hy : 0 < y) (hyM : y ≤ M)
    (hne : a (x - 1) ≠ b (y - 1)) :
    fdist a b N M x y =
      1 + min (fdist a b N M (x - 1) y) (fdist a b N M x (y - 1)) := by
  unfold fdist
  rw [min_eq_left hxN, min_eq_left hyM, min_eq_left (show x - 1 ≤ N by omega),
    min_eq_left (show y - 1 ≤ M by omega)]
  have ha : listOfF a x = listOfF a (x - 1) ++ [a (x - 1)] := by
    have := listOfF_succ a (n := x - 1) (by omega)
    simpa [show x - 1 + 1 = x by omega] using this
  have hb : listOfF b y = listOfF b (y - 1) ++ [b (y - 1)] := by
    have := listOfF_succ b (n := y - 1) (by omega)
    simpa [show y - 1 + 1 = y by omega] using this
  rw [ha, hb]
  simp only [List.reverse_append, List.reverse_cons, List.reverse_nil, List.nil_append,
    List.singleton_append]
  rw [ed_cons_cons, if_neg hne]
  have hz1 : (x - N).toNat = 0 := by omega
  have hz2 : (y - M).toNat = 0 := by omega
  have hz3 : (x - 1 - N).toNat = 0 := by omega
  have hz4 : (y - 1 - M).toNat = 0 := by omega
  rw [hz1, hz2, hz3, hz4]
  omega

/-- On the axes `fdist` is the coordinate itself. -/
theorem fdist_x_axis (a b : Int → Int) {N M x : Int}
    (hM : 0 ≤ M) (hx : 0 ≤ x) (hxN : x ≤ N) :
    fdist a b N M x 0 = x.toNat := by
  unfold fdist
  rw [min_eq_left hxN, min_eq_left hM]
  simp [ed_nil_right]
  omega

theorem fdist_y_axis (a b : Int → Int) {N M y : Int}
    (hN : 0 ≤ N) (hy : 0 ≤ y) (hyM : y ≤ M) :
    fdist a b N M 0 y = y.toNat := by
  unfold fdist
  rw [min_eq_left hN, min_eq_left hyM]
  simp [ed_nil_left]
  omega

/-- In-grid parity of `fdist`: it differs from `x + y` by an even number. -/
theorem fdist_parity (a b : Int → Int) {N M x y : Int}
    (hx : 0 ≤ x) (hxN : x ≤ N) (hy : 0 ≤ y) (hyM : y ≤ M) :
    ∃ l : Nat, (fdist a b N M x y : Int) = x + y - 2 * l := by
  unfold fdist
  refine ⟨lcs (listOfF a x).reverse (listOfF b y).reverse, ?_⟩
  rw [min_eq_left hxN, min_eq_left hyM]
  have := ed_eq_lcs (listOfF a x).reverse (listOfF b y).reverse
  simp only [List.length_reverse, listOfF_length] at this
  have hz1 : (x - N).toNat = 0 := by omega
  have hz2 : (y - M).toNat = 0 := by omega
  rw [hz1, hz2]
  push_cast at this ⊢
  omega

/-- In-grid diagonal bound: `|x - y| ≤ fdist x y`. -/
theorem fdist_diag_bound (a b : Int → Int) {N M x y : Int}
    (hx : 0 ≤ x) (hxN : x ≤ N) (hy : 0 ≤ y) (hyM : y ≤ M) :
    (x - y : Int) ≤ fdist a b N M x y ∧ (y - x : Int) ≤ fdist a b N M x y := by
  unfold fdist
  rw [min_eq_left hxN, min_eq_left hyM]
  have := ed_bounds (listOfF a x).reverse (listOfF b y).reverse
  simp only [List.length_reverse, listOfF_length] at this
  push_cast at this
  constructor <;> [skip; skip] <;> omega

/-- `fdist = 0` on the grid means the two prefixes agree elementwise. -/
theorem fdist_eq_zero (a b : Int → Int) {N M x y : Int}
    (hx : 0 ≤ x) (hxN : x ≤ N) (hy : 0 ≤ y) (hyM : y ≤ M)
    (h : fdist a b N M x y = 0) :
    x = y ∧ ∀ i : Int, 0 ≤ i → i < x → a i = b i := by
  obtain ⟨t, ht⟩ : ∃ t : Nat, x = (t : Int) := ⟨x.toNat, by omega⟩
  induction t generalizing x y with
  | zero =>
    have hx0 : x = 0 := by omega
    subst hx0
    have := fdist_y_axis a b (N := N) (by omega) hy hyM
    rw [this] at h
    constructor
    · omega
    · intro i h1 h2; omega
  | succ t ih =>
    rcases le_or_lt y 0 with hy0 | hy0
    · have hyz : y = 0 := by omega
      subst hyz
      rw [fdist_x_axis a b (by omega) hx hxN] at h
      omega
    · -- x > 0, y > 0: peel the matching last elements
      have hx0 : 0 < x := by omega
      have hrec : a (x - 1) = b (y - 1) := by
        by_contra hne
        rw [fdist_rec_nomatch a b hx0 hxN hy0 hyM hne] at h
        omega
      have hstep : fdist a b N M (x - 1) (y - 1) = 0 := by
        have := fdist_match a b (N := N) (M := M) (x := x - 1) (y := y - 1)
          (by omega) (by omega) (by omega) (by omega) hrec
        rw [show x - 1 + 1 = x by omega, show y - 1 + 1 = y by omega] at this
        omega
      obtain ⟨hxy, hmatch⟩ := ih (x := x - 1) (y := y - 1)
        (by omega) (by omega) (by omega) (by omega) hstep (by omega)
      refine ⟨by omega, fun i h1 h2 => ?_⟩
      rcases lt_or_ge i (x - 1) with hi | hi
      · exact hmatch i h1 hi
      · have hix : i = x - 1 := by omega
        have hiy : i = y - 1 := by omega
        calc a i = a (x - 1) := by rw [hix]
          _ = b (y - 1) := hrec
          _ = b i := by rw [hiy]

/-! ## Relating the backward potential to the forward one on reversed input -/

/-- Reversing an initial segment of the reversed-access sequence
`i ↦ a (N-i-1)` (the element function the backward search uses) gives a
final segment of the original sequence. -/
theorem listOfF_rev_eq (a : Int → Int) (N : Int) :
    ∀ m : Nat, (m : Int) ≤ N →
      (listOfF (fun i => a (N - i - 1)) (m : Int)).reverse
        = listOfF (shift a (N - (m : Int))) (m : Int) := by
  intro m
  induction m with
  | zero => intro h; simp
  | succ m ih =>
    intro h
    push_cast at h ⊢
    rw [listOfF_succ _ (show (0 : Int) ≤ (m : Int) by positivity)]
    rw [List.reverse_append, List.reverse_cons, List.reverse_nil, List.nil_append,
      List.singleton_append]
    rw [ih (by omega)]
    rw [listOfF_cons (shift a (N - ((m : Int) + 1)))
      (show (0 : Int) < (m : Int) + 1 by positivity)]
    rw [shift_shift]
    rw [show N - ((m : Int) + 1) + 1 = N - (m : Int) from by ring,
      show (m : Int) + 1 - 1 = (m : Int) from by ring]
    congr 1
    show a (N - (m : Int) - 1) = shift a (N - ((m : Int) + 1)) 0
    simp only [shift]
    congr 1
    ring

theorem listOfF_rev_eq_int (a : Int → Int) {N z : Int} (h0 : 0 ≤ z) (hN : z ≤ N) :
    (listOfF (fun i => a (N - i - 1)) z).reverse = listOfF (shift a (N - z)) z := by
  obtain ⟨m, hm⟩ : ∃ m : Nat, z = (m : Int) := ⟨z.toNat, by omega⟩
  subst hm
  exact listOfF_rev_eq a N m hN

/-- The clamped prefix of the reversed sequence, reversed, is the clamped
suffix of the original sequence. -/
theorem listOfF_rev_sufList (a : Int → Int) {N : Int} (hN : 0 ≤ N) (x : Int) :
    (listOfF (fun i => a (N - i - 1)) (min (N - x) N)).reverse = sufList a N x := by
  rcases le_or_lt x 0 with hx | hx
  · rw [min_eq_right (by omega), sufList_neg a hx, sufList_zero]
    rw [listOfF_rev_eq_int a hN le_rfl]
    rw [show N - N = 0 from by ring, shift_zero]
  · rcases le_or_lt x N with hxN | hxN
    · rw [min_eq_left (by omega)]
      rw [listOfF_rev_eq_int a (by omega) (by omega)]
      rw [show N - (N - x) = x from by ring]
      unfold sufList
      rw [max_eq_left (by omega)]
    · rw [min_eq_left (by omega)]
      rw [listOfF_nonpos _ (by omega), sufList_top a (by omega)]
      rfl

/-- `hdist` on the original sequences is `fdist` on the reversed sequences
at the mirrored point: this converts backward-search certificates. -/
theorem hdist_eq_fdist_rev (a b : Int → Int) {N M : Int} (x y : Int)
    (hN : 0 ≤ N) (hM : 0 ≤ M) :
    hdist a b N M x y
      = fdist (fun i => a (N - i - 1)) (fun j => b (M - j - 1)) N M (N - x) (M - y) := by
  unfold hdist fdist
  rw [listOfF_rev_sufList a hN x, listOfF_rev_sufList b hM y,
    show N - x - N = -x from by ring, show M - y - M = -y from by ring]

/-- The mirror-image form: a forward potential of the reversed problem is a
backward potential of the original one. -/
theorem fdist_rev_eq_hdist (a b : Int → Int) {N M : Int} (u v : Int)
    (hN : 0 ≤ N) (hM : 0 ≤ M) :
    fdist (fun i => a (N - i - 1)) (fun j => b (M - j - 1)) N M u v
      = hdist a b N M (N - u) (M - v) := by
  rw [hdist_eq_fdist_rev a b (N - u) (M - v) hN hM]
  rw [show N - (N - u) = u from by ring, show M - (M - v) = v from by ring]

/-! ## Subadditivity and further grid lemmas -/

/-- On the grid, `fdist` is the plain edit distance of the two prefixes. -/
theorem fdist_grid (a b : Int → Int) {N M x y : Int}
    (hxN : x ≤ N) (hyM : y ≤ M) :
    fdist a b N M x y = ed (listOfF a x) (listOfF b y) := by
  unfold fdist
  rw [min_eq_left hxN, min_eq_left hyM, ed_reverse]
  have h1 : (x - N).toNat = 0 := by omega
  have h2 : (y - M).toNat = 0 := by omega
  rw [h1, h2]
  omega

/-- Appending on the right costs at most the appended length. -/
theorem ed_le_append_end (A B1 B2 : List Int) :
    ed A (B1 ++ B2) ≤ ed A B1 + B2.length := by
  have h := ed_le_append_right A.reverse B2.reverse B1.reverse
  rw [← List.reverse_append, ed_reverse, ed_reverse] at h
  simp only [List.length_reverse] at h
  omega

theorem ed_le_append_end_left (A1 A2 B : List Int) :
    ed (A1 ++ A2) B ≤ ed A1 B + A2.length := by
  have h := ed_le_append_left A2.reverse A1.reverse B.reverse
  rw [← List.reverse_append, ed_reverse, ed_reverse] at h
  simp only [List.length_reverse] at h
  omega

/-- Splitting the full problem at any point: the whole edit distance is at
most prefix `fdist` plus suffix `hdist` taken at the same point, wherever
that point lies. -/
theorem ed_le_fdist_add_hdist (a b : Int → Int) {N M : Int} (x y : Int)
    (hN : 0 ≤ N) (hM : 0 ≤ M) :
    ed (listOfF a N) (listOfF b M) ≤ fdist a b N M x y + hdist a b N M x y := by
  have hsa : (sufList a N x).length = (N - max x 0).toNat := by
    unfold sufList; rw [listOfF_length]
  have hsb : (sufList b M y).length = (M - max y 0).toNat := by
    unfold sufList; rw [listOfF_length]
  rcases le_or_lt 0 x with hx0 | hx0
  · rcases le_or_lt x N with hxN | hxN
    · rcases le_or_lt 0 y with hy0 | hy0
      · rcases le_or_lt y M with hyM | hyM
        · -- grid × grid
          rw [fdist_grid a b hxN hyM]
          rw [listOfF_append a hx0 hxN, listOfF_append b hy0 hyM]
          unfold hdist
          have := ed_append_le (listOfF a x) (sufList a N x) (listOfF b y) (sufList b M y)
          omega
        · -- x on the grid, y > M
          unfold fdist hdist
          rw [min_eq_left hxN, min_eq_right (show M ≤ y by omega)]
          rw [sufList_top b (show M ≤ y by omega)]
          rw [ed_nil_right, ed_reverse]
          rw [listOfF_append a hx0 hxN]
          have h1 := ed_le_append_end_left (listOfF a x) (sufList a N x) (listOfF b M)
          omega
      · -- x on the grid, y < 0
        unfold fdist hdist
        rw [min_eq_left hxN]
        rw [listOfF_nonpos b (show min y M ≤ 0 by omega)]
        rw [List.reverse_nil, ed_nil_right]
        rw [sufList_neg b (show y ≤ 0 by omega), sufList_zero]
        rw [listOfF_append a hx0 hxN]
        have h1 := ed_le_append_left (listOfF a x) (sufList a N x) (listOfF b M)
        simp only [List.length_reverse, listOfF_length] at h1 ⊢
        omega
    · -- x > N
      rcases le_or_lt 0 y with hy0 | hy0
      · rcases le_or_lt y M with hyM | hyM
        · -- x > N, y on the grid
          unfold fdist hdist
          rw [min_eq_right (show N ≤ x by omega), min_eq_left hyM]
          rw [sufList_top a (show N ≤ x by omega)]
          rw [ed_nil_left, ed_reverse]
          rw [listOfF_append b hy0 hyM]
          have h1 := ed_le_append_end (listOfF a N) (listOfF b y) (sufList b M y)
          omega
        · -- x > N, y > M
          unfold fdist hdist
          rw [min_eq_right (show N ≤ x by omega), min_eq_right (show M ≤ y by omega)]
          rw [sufList_top a (show N ≤ x by omega), sufList_top b (show M ≤ y by omega)]
          rw [ed_nil_left, ed_reverse, List.length_nil]
          have := (ed_bounds (listOfF a N) (listOfF b M)).2.2
          simp only [listOfF_length] at this
          omega
      · -- x > N, y < 0
        unfold fdist hdist
        rw [min_eq_right (show N ≤ x by omega)]
        rw [listOfF_nonpos b (show min y M ≤ 0 by omega)]
        rw [List.reverse_nil, ed_nil_right]
        rw [sufList_top a (show N ≤ x by omega)]
        rw [ed_nil_left]
        rw [sufList_neg b (show y ≤ 0 by omega), sufList_zero]
        have := (ed_bounds (listOfF a N) (listOfF b M)).2.2
        simp only [List.length_reverse, listOfF_length] at this ⊢
        omega
  · -- x < 0
    rcases le_or_lt 0 y with hy0 | hy0
    · rcases le_or_lt y M with hyM | hyM
      · -- x < 0, y on the grid
        unfold fdist hdist
        rw [listOfF_nonpos a (show min x N ≤ 0 by omega), min_eq_left hyM]
        rw [List.reverse_nil, ed_nil_left]
        rw [sufList_neg a (show x ≤ 0 by omega), sufList_zero]
        rw [listOfF_append b hy0 hyM]
        have h1 := ed_le_append_right (listOfF a N) (listOfF b y) (sufList b M y)
        simp only [List.length_reverse, listOfF_length] at h1 ⊢
        omega
      · -- x < 0, y > M
        unfold fdist hdist
        rw [listOfF_nonpos a (show min x N ≤ 0 by omega),
          min_eq_right (show M ≤ y by omega)]
        rw [List.reverse_nil, ed_nil_left]
        rw [sufList_neg a (show x ≤ 0 by omega), sufList_zero,
          sufList_top b (show M ≤ y by omega)]
        rw [ed_nil_right]
        have := (ed_bounds (listOfF a N) (listOfF b M)).2.2
        simp only [List.length_reverse, listOfF_length] at this ⊢
        omega
    · -- x < 0, y < 0
      unfold fdist hdist
      rw [listOfF_nonpos a (show min x N ≤ 0 by omega),
        listOfF_nonpos b (show min y M ≤ 0 by omega)]
      rw [List.reverse_nil, ed_nil_left, List.length_nil]
      rw [sufList_neg a (show x ≤ 0 by omega), sufList_zero,
        sufList_neg b (show y ≤ 0 by omega), sufList_zero]
      omega

/-- Diagonal monotonicity of `fdist`, valid at every integer point. -/
theorem fdist_diag_le_all (a b : Int → Int) {N M : Int} (x y : Int)
    (hN : 0 ≤ N) (hM : 0 ≤ M) :
    fdist a b N M x y ≤ fdist a b N M (x + 1) (y + 1) := by
  rcases le_or_lt 0 x with hx | hx
  · rcases le_or_lt 0 y with hy | hy
    · exact fdist_diag_le a b hN hM hx hy
    · -- y < 0: both second lists are empty
      unfold fdist
      rw [listOfF_nonpos b (show min y M ≤ 0 by omega),
        listOfF_nonpos b (show min (y + 1) M ≤ 0 by omega)]
      rw [List.reverse_nil, ed_nil_right, ed_nil_right]
      simp only [List.length_reverse, listOfF_length]
      omega
  · -- x < 0: both first lists are empty
    unfold fdist
    rw [listOfF_nonpos a (show min x N ≤ 0 by omega),
      listOfF_nonpos a (show min (x + 1) N ≤ 0 by omega)]
    rw [List.reverse_nil, ed_nil_left, ed_nil_left]
    simp only [List.length_reverse, listOfF_length]
    omega

/-- Iterated diagonal monotonicity of `fdist`, valid everywhere. -/
theorem fdist_diag_chain_all (a b : Int → Int) {N M : Int} (x1 y1 x2 y2 : Int)
    (hN : 0 ≤ N) (hM : 0 ≤ M) (hd : x2 - x1 = y2 - y1) (hle : x1 ≤ x2) :
    fdist a b N M x1 y1 ≤ fdist a b N M x2 y2 := by
  obtain ⟨m, hm⟩ : ∃ m : Nat, x2 = x1 + (m : Int) := ⟨(x2 - x1).toNat, by omega⟩
  have hy2 : y2 = y1 + (m : Int) := by omega
  subst hm hy2
  clear hd hle
  induction m with
  | zero => simp
  | succ m ih =>
    have step := fdist_diag_le_all a b (x1 + (m : Int)) (y1 + (m : Int)) hN hM
    calc fdist a b N M x1 y1 ≤ fdist a b N M (x1 + (m : Int)) (y1 + (m : Int)) := ih
      _ ≤ fdist a b N M (x1 + (m : Int) + 1) (y1 + (m : Int) + 1) := step
      _ = fdist a b N M (x1 + ((m : Nat) + 1 : Nat)) (y1 + ((m : Nat) + 1 : Nat)) := by
          push_cast
          ring_nf

/-! ## Backward-potential lemmas, by reduction to the forward ones -/

/-- A matching in-grid diagonal move keeps `hdist` unchanged. -/
theorem hdist_match (a b : Int → Int) {N M x y : Int}
    (hx : 0 ≤ x) (hxN : x < N) (hy : 0 ≤ y) (hyM : y < M) (hab : a x = b y) :
    hdist a b N M x y = hdist a b N M (x + 1) (y + 1) := by
  unfold hdist
  rw [sufList_cons a hx hxN, sufList_cons b hy hyM, hab, ed_cons_same]
  have h1 : (-x).toNat = (-(x + 1)).toNat := by omega
  have h2 : (-y).toNat = (-(y + 1)).toNat := by omega
  rw [h1, h2]

/-- `hdist` is antitone along diagonals. -/
theorem hdist_diag_chain (a b : Int → Int) {N M : Int} (x1 y1 x2 y2 : Int)
    (hN : 0 ≤ N) (hM : 0 ≤ M) (hd : x2 - x1 = y2 - y1) (hle : x1 ≤ x2) :
    hdist a b N M x2 y2 ≤ hdist a b N M x1 y1 := by
  rw [hdist_eq_fdist_rev a b x2 y2 hN hM, hdist_eq_fdist_rev a b x1 y1 hN hM]
  exact fdist_diag_chain_all _ _ _ _ _ _ hN hM (by omega) (by omega)

/-- Parity of the backward potential at a grid point. -/
theorem hdist_parity (a b : Int → Int) {N M x y : Int}
    (hN : 0 ≤ N) (hM : 0 ≤ M) (hx : 0 ≤ x) (hxN : x ≤ N) (hy : 0 ≤ y) (hyM : y ≤ M) :
    ∃ l : Nat, (hdist a b N M x y : Int) = (N - x) + (M - y) - 2 * l := by
  rw [hdist_eq_fdist_rev a b x y hN hM]
  exact fdist_parity _ _ (by omega) (by omega) (by omega) (by omega)

/-! ## Further properties of the snake extension loop -/

/-- The snake never moves backward. -/
theorem snakeGo_le (f g : Int → Int) (N M : Int) :
    ∀ (fuel : Nat) (x y : Int), x ≤ (snakeGo f g N M fuel x y).1 := by
  intro fuel
  induction fuel with
  | zero => intro x y; simp [snakeGo]
  | succ n ih =>
    intro x y
    simp only [snakeGo]
    split
    · have := ih (x + 1) (y + 1); omega
    · simp

theorem snake_le (f g : Int → Int) (N M x y : Int) : x ≤ (snake f g N M x y).1 :=
  snakeGo_le f g N M _ x y

/-- When the snake loop stops its guard has failed (the fuel is exactly the
distance to the right wall, so exhaustion means `x = N`). -/
theorem snakeGo_stop (f g : Int → Int) (N M : Int) :
    ∀ (fuel : Nat) (x y : Int), (N - x).toNat ≤ fuel →
      ¬ ((snakeGo f g N M fuel x y).1 < N ∧ (snakeGo f g N M fuel x y).2 < M ∧
         f (snakeGo f g N M fuel x y).1 = g (snakeGo f g N M fuel x y).2) := by
  intro fuel
  induction fuel with
  | zero =>
    intro x y hf
    simp only [snakeGo]
    rintro ⟨h1, -, -⟩
    omega
  | succ n ih =>
    intro x y hf
    simp only [snakeGo]
    split
    · exact ih (x + 1) (y + 1) (by omega)
    · rename_i hc
      simpa using hc

theorem snake_stop (f g : Int → Int) (N M x y : Int) :
    ¬ ((snake f g N M x y).1 < N ∧ (snake f g N M x y).2 < M ∧
       f (snake f g N M x y).1 = g (snake f g N M x y).2) :=
  snakeGo_stop f g N M _ x y le_rfl

/-- Everything strictly between the start and the end of the snake matches
and lies inside the grid. -/
theorem snakeGo_matches (f g : Int → Int) (N M : Int) :
    ∀ (fuel : Nat) (x y i : Int), x ≤ i → i < (snakeGo f g N M fuel x y).1 →
      i < N ∧ y + (i - x) < M ∧ f i = g (y + (i - x)) := by
  intro fuel
  induction fuel with
  | zero => intro x y i h1 h2; simp [snakeGo] at h2; omega
  | succ n ih =>
    intro x y i h1 h2
    simp only [snakeGo] at h2
    by_cases hc : x < N ∧ y < M ∧ f x = g y
    · rw [if_pos hc] at h2
      obtain ⟨hcx, hcy, hcf⟩ := hc
      rcases eq_or_lt_of_le h1 with he | hlt
      · rw [← he]
        refine ⟨hcx, by omega, ?_⟩
        rw [show y + (x - x) = y from by ring]
        exact hcf
      · have h3 := ih (x + 1) (y + 1) i (by omega) h2
        refine ⟨h3.1, by omega, ?_⟩
        have h4 := h3.2.2
        rw [show y + 1 + (i - (x + 1)) = y + (i - x) from by ring] at h4
        exact h4
    · rw [if_neg hc] at h2
      dsimp only at h2
      omega

theorem snake_matches (f g : Int → Int) {N M x y : Int} (i : Int) (h1 : x ≤ i)
    (h2 : i < (snake f g N M x y).1) :
    i < N ∧ y + (i - x) < M ∧ f i = g (y + (i - x)) :=
  snakeGo_matches f g N M _ x y i h1 h2

/-- If everything from the start up to `z` matches inside the grid, the
snake reaches at least `z`. -/
theorem snake_ge (f g : Int → Int) {N M : Int} (x y z : Int)
    (hz : z ≤ N) (hzy : y + (z - x) ≤ M)
    (hm : ∀ i, x ≤ i → i < z → f i = g (y + (i - x))) :
    z ≤ (snake f g N M x y).1 := by
  by_contra hlt
  push_neg at hlt
  have hstop := snake_stop f g N M x y
  have hle := snake_le f g N M x y
  have hsub := snake_sub f g N M x y
  refine hstop ⟨by omega, by omega, ?_⟩
  have := hm (snake f g N M x y).1 hle hlt
  rw [show y + ((snake f g N M x y).1 - x) = (snake f g N M x y).2 from by omega] at this
  exact this

/-- The snake keeps any `fdist` certificate: matching diagonal moves do not
change the potential. -/
theorem snakeGo_cert (f g : Int → Int) (N M : Int) (c : Nat) :
    ∀ (fuel : Nat) (x y : Int), 0 ≤ x → 0 ≤ y → fdist f g N M x y ≤ c →
      fdist f g N M (snakeGo f g N M fuel x y).1 (snakeGo f g N M fuel x y).2 ≤ c := by
  intro fuel
  induction fuel with
  | zero => intro x y _ _ h; simpa [snakeGo] using h
  | succ n ih =>
    intro x y hx hy h
    simp only [snakeGo]
    split
    · rename_i hc
      refine ih (x + 1) (y + 1) (by omega) (by omega) ?_
      rw [fdist_match f g hx hc.1 hy hc.2.1 hc.2.2]
      exact h
    · simpa using h

theorem snake_cert (f g : Int → Int) {N M : Int} (c : Nat) (x y : Int)
    (hx : 0 ≤ x) (hy : 0 ≤ y) (h : fdist f g N M x y ≤ c) :
    fdist f g N M (snake f g N M x y).1 (snake f g N M x y).2 ≤ c :=
  snakeGo_cert f g N M c _ x y hx hy h

/-! ## The `k`-loop body as a pure update -/

/-- The tie-broken starting `x` of a `k`-loop body (lines 91-94):
down-move from the diagonal above, or right-move from the one below. -/
def stepX0 (V : Int → Int) (D k : Int) : Int :=
  if k = -D ∨ (k ≠ D ∧ V (k - 1) < V (k + 1)) then V (k + 1) else V (k - 1) + 1

/-- The value the `k`-loop body writes into the array: the tie-broken start
extended by the snake. -/
def stepCore (f g : Int → Int) (N M : Int) (V : Int → Int) (D k : Int) : Int :=
  (snake f g N M (stepX0 V D k) (stepX0 V D k - k)).1

theorem stepX0_congr {V W : Int → Int} (D k : Int)
    (h1 : V (k - 1) = W (k - 1)) (h2 : V (k + 1) = W (k + 1)) :
    stepX0 V D k = stepX0 W D k := by
  unfold stepX0
  rw [h1, h2]

theorem stepCore_congr (f g : Int → Int) (N M : Int) {V W : Int → Int} (D k : Int)
    (h1 : V (k - 1) = W (k - 1)) (h2 : V (k + 1) = W (k + 1)) :
    stepCore f g N M V D k = stepCore f g N M W D k := by
  unfold stepCore
  rw [stepX0_congr D k h1 h2]

theorem stepX0_cases (V : Int → Int) (D k : Int) :
    (stepX0 V D k = V (k + 1) ∧ (k = -D ∨ (k ≠ D ∧ V (k - 1) < V (k + 1)))) ∨
    (stepX0 V D k = V (k - 1) + 1 ∧ k ≠ -D ∧ (k ≠ D → V (k + 1) ≤ V (k - 1))) := by
  unfold stepX0
  split
  · rename_i h
    exact Or.inl ⟨rfl, h⟩
  · rename_i h
    push_neg at h
    exact Or.inr ⟨rfl, h.1, fun hk => h.2 hk⟩

/-! ## The per-diagonal invariant and its preservation -/

/-- The invariant a stored diagonal value enjoys after the round at cost
level `lvl`: it is a grid-feasible position on diagonal `k`, it carries a
`≤ lvl` certificate, and it dominates every grid point of diagonal `k`
whose potential is `≤ lvl`. -/
def Ent (f g : Int → Int) (N M lvl k v : Int) : Prop :=
  0 ≤ v ∧ k ≤ v ∧ (fdist f g N M v (v - k) : Int) ≤ lvl ∧
  ∀ x : Int, 0 ≤ x → x ≤ N → 0 ≤ x - k → x - k ≤ M →
    (fdist f g N M x (x - k) : Int) ≤ lvl → x ≤ v

/-- Peeling an optimal path backwards: any grid point of potential `≤ c`
is reached from an *arrival point* on the same diagonal by a (possibly
empty) run of matches, and the arrival point is the origin or sits one
non-diagonal step after a point of potential `< c` on a neighbouring
diagonal. -/
theorem fdist_arrival (f g : Int → Int) {N M : Int} (hN : 0 ≤ N) (hM : 0 ≤ M) :
    ∀ (n : Nat) (x y : Int) (c : Nat), x ≤ (n : Int) → 0 ≤ x → x ≤ N → 0 ≤ y → y ≤ M →
      fdist f g N M x y ≤ c →
      ∃ xa : Int, 0 ≤ xa ∧ xa ≤ x ∧ 0 ≤ xa - (x - y) ∧
        (∀ i : Int, xa ≤ i → i < x → f i = g (i - (x - y))) ∧
        ((xa = 0 ∧ xa - (x - y) = 0) ∨
         (0 < xa - (x - y) ∧ fdist f g N M xa (xa - (x - y) - 1) + 1 ≤ c) ∨
         (0 < xa ∧ fdist f g N M (xa - 1) (xa - (x - y)) + 1 ≤ c)) := by
  intro n
  induction n with
  | zero =>
    intro x y c hxn hx hxN hy hyM hc
    have hx0 : x = 0 := by omega
    subst hx0
    rcases eq_or_lt_of_le hy with hy0 | hy0
    · exact ⟨0, le_rfl, le_rfl, by omega, fun i h1 h2 => absurd h2 (by omega),
        Or.inl ⟨rfl, by omega⟩⟩
    · refine ⟨0, le_rfl, le_rfl, by omega,
        fun i h1 h2 => absurd h2 (by omega), Or.inr (Or.inl ⟨by omega, ?_⟩)⟩
      have h1 := fdist_y_axis f g (N := N) hN (show (0 : Int) ≤ y - 1 by omega)
        (show y - 1 ≤ M by omega)
      have h2 := fdist_y_axis f g (N := N) hN hy hyM
      rw [show (0 : Int) - (0 - y) - 1 = y - 1 from by ring, h1]
      rw [h2] at hc
      omega
  | succ n ih =>
    intro x y c hxn hx hxN hy hyM hc
    rcases eq_or_lt_of_le hx with hx0 | hx0
    · rw [← hx0] at hxN hc ⊢
      rcases eq_or_lt_of_le hy with hy0 | hy0
      · exact ⟨0, le_rfl, le_rfl, by omega, fun i h1 h2 => absurd h2 (by omega),
          Or.inl ⟨rfl, by omega⟩⟩
      · refine ⟨0, le_rfl, le_rfl, by omega,
          fun i h1 h2 => absurd h2 (by omega), Or.inr (Or.inl ⟨by omega, ?_⟩)⟩
        have h1 := fdist_y_axis f g (N := N) hN (show (0 : Int) ≤ y - 1 by omega)
          (show y - 1 ≤ M by omega)
        have h2 := fdist_y_axis f g (N := N) hN hy hyM
        rw [show (0 : Int) - (0 - y) - 1 = y - 1 from by ring, h1]
        rw [h2] at hc
        omega
    · rcases eq_or_lt_of_le hy with hy0 | hy0
      · -- y = 0, x > 0: arrival at `x` itself with a horizontal predecessor
        refine ⟨x, by omega, le_rfl, by omega, fun i h1 h2 => absurd h2 (by omega),
          Or.inr (Or.inr ⟨by omega, ?_⟩)⟩
        have h1 := fdist_x_axis f g (M := M) hM (show (0 : Int) ≤ x - 1 by omega)
          (show x - 1 ≤ N by omega)
        have h2 := fdist_x_axis f g (M := M) hM hx hxN
        rw [show x - (x - y) = (0 : Int) from by omega, h1]
        rw [← hy0] at hc
        rw [h2] at hc
        omega
      · by_cases hmatch : f (x - 1) = g (y - 1)
        · have heq : fdist f g N M x y = fdist f g N M (x - 1) (y - 1) := by
            have := fdist_match f g (N := N) (M := M) (x := x - 1) (y := y - 1)
              (by omega) (by omega) (by omega) (by omega) hmatch
            rw [show x - 1 + 1 = x from by ring, show y - 1 + 1 = y from by ring] at this
            exact this
          obtain ⟨xa, ha1, ha2, ha3, ham, hpred⟩ := ih (x - 1) (y - 1) c (by omega) (by omega)
            (by omega) (by omega) (by omega) (by rw [← heq]; exact hc)
          have hk : (x - 1) - (y - 1) = x - y := by ring
          rw [hk] at ha3 ham hpred
          refine ⟨xa, ha1, by omega, ha3, ?_, hpred⟩
          intro i h1 h2
          rcases lt_or_ge i (x - 1) with hi | hi
          · exact ham i h1 hi
          · have hieq : i = x - 1 := by omega
            subst hieq
            rw [show x - 1 - (x - y) = y - 1 from by ring]
            exact hmatch
        · -- mismatch: arrival at `(x, y)` itself
          have hrec := fdist_rec_nomatch f g (N := N) (M := M) hx0 hxN hy0 hyM hmatch
          refine ⟨x, by omega, le_rfl, by omega, fun i h1 h2 => absurd h2 (by omega), ?_⟩
          rcases le_total (fdist f g N M (x - 1) y) (fdist f g N M x (y - 1)) with hm1 | hm1
          · refine Or.inr (Or.inr ⟨by omega, ?_⟩)
            rw [show x - (x - y) = y from by ring]
            omega
          · refine Or.inr (Or.inl ⟨by omega, ?_⟩)
            rw [show x - (x - y) - 1 = y - 1 from by ring]
            omega

/-- Assembling the invariant at a snake end from facts about its start. -/
theorem step_Ent_assemble (f g : Int → Int) {N M D k : Int} (x0 : Int)
    (hN : 0 ≤ N) (hM : 0 ≤ M) (hD : 0 ≤ D)
    (hx0nn : 0 ≤ x0) (hx0k : k ≤ x0)
    (hcert : (fdist f g N M x0 (x0 - k) : Int) ≤ D)
    (hdomV : ∀ z : Int, 0 ≤ z → z ≤ N → 0 ≤ z - (k + 1) → z - (k + 1) ≤ M →
      (fdist f g N M z (z - (k + 1)) : Int) ≤ D - 1 → z ≤ x0)
    (hdomH : ∀ z : Int, 0 ≤ z → z ≤ N → 0 ≤ z - (k - 1) → z - (k - 1) ≤ M →
      (fdist f g N M z (z - (k - 1)) : Int) ≤ D - 1 → z + 1 ≤ x0) :
    Ent f g N M D k ((snake f g N M x0 (x0 - k)).1) := by
  have hsle := snake_le f g N M x0 (x0 - k)
  have hssub := snake_sub f g N M x0 (x0 - k)
  refine ⟨by omega, by omega, ?_, ?_⟩
  · have hc2 : fdist f g N M x0 (x0 - k) ≤ D.toNat := by omega
    have h3 := snake_cert f g D.toNat x0 (x0 - k) hx0nn (by omega) hc2
    have hp2 : (snake f g N M x0 (x0 - k)).2 = (snake f g N M x0 (x0 - k)).1 - k := by omega
    rw [hp2] at h3
    omega
  · intro z hz hzN hzk hzkM hcert2
    obtain ⟨xa, ha1, ha2, ha3, ham, hpred⟩ := fdist_arrival f g hN hM z.toNat z (z - k) D.toNat
      (by omega) hz hzN hzk hzkM (by omega)
    rw [show z - (z - k) = k from by ring] at ha3 ham hpred
    have hxa : xa ≤ x0 := by
      rcases hpred with ⟨hxa0, -⟩ | ⟨hpos, hfd⟩ | ⟨hpos, hfd⟩
      · omega
      · refine hdomV xa ha1 (by omega) (by omega) (by omega) ?_
        rw [show xa - (k + 1) = xa - k - 1 from by ring]
        omega
      · have := hdomH (xa - 1) (by omega) (by omega)
          (by rw [show xa - 1 - (k - 1) = xa - k from by ring]; omega)
          (by rw [show xa - 1 - (k - 1) = xa - k from by ring]; omega)
          (by rw [show xa - 1 - (k - 1) = xa - k from by ring]; omega)
        omega
    rcases le_or_lt z x0 with hzx0 | hzx0
    · omega
    · apply snake_ge f g x0 (x0 - k) z hzN (by omega)
      intro i h1 h2
      rw [show x0 - k + (i - x0) = i - k from by ring]
      exact ham i (by omega) h2

/-- Preservation of the per-diagonal invariant by one `k`-loop body:
the value written at diagonal `k` in round `D` satisfies `Ent` at level `D`
provided the two neighbouring diagonals satisfied it at level `D-1` after
the previous round (and `Vf[1]` holds the seed `0` in round `0`). -/
theorem step_Ent (f g : Int → Int) {N M D k : Int} {V : Int → Int}
    (hN : 0 ≤ N) (hM : 0 ≤ M) (hD : 0 ≤ D) (hk1 : -D ≤ k) (hk2 : k ≤ D)
    (hpar : (k + D) % 2 = 0)
    (hup : -(D - 1) ≤ k + 1 → k + 1 ≤ D - 1 → Ent f g N M (D - 1) (k + 1) (V (k + 1)))
    (hdn : -(D - 1) ≤ k - 1 → k - 1 ≤ D - 1 → Ent f g N M (D - 1) (k - 1) (V (k - 1)))
    (hseed : D = 0 → V (k + 1) = 0) :
    Ent f g N M D k (stepCore f g N M V D k) ∧
    0 ≤ stepX0 V D k ∧ k ≤ stepX0 V D k ∧
    (fdist f g N M (stepX0 V D k) (stepX0 V D k - k) : Int) ≤ D := by
  rcases eq_or_lt_of_le hD with hD0 | hD1
  · -- round 0: the seed value is taken and the snake starts at the origin
    have hk0 : k = 0 := by omega
    subst hk0
    have hx0 : stepX0 V D 0 = 0 := by
      unfold stepX0
      rw [if_pos (Or.inl (by omega))]
      exact hseed hD0.symm
    have hc0 : fdist f g N M 0 (0 - 0) ≤ (0 : Nat) := by
      rw [show (0 : Int) - 0 = 0 from by ring, fdist_zero f g hN hM]
    refine ⟨?_, by rw [hx0], by rw [hx0], by rw [hx0]; omega⟩
    unfold stepCore
    rw [hx0]
    have hsle := snake_le f g N M 0 (0 - 0)
    have hssub := snake_sub f g N M 0 (0 - 0)
    refine ⟨by omega, by omega, ?_, ?_⟩
    · have h3 := snake_cert f g 0 0 (0 - 0) le_rfl (by omega) hc0
      have hp2 : (snake f g N M 0 (0 - 0)).2 = (snake f g N M 0 (0 - 0)).1 - 0 := by omega
      rw [hp2] at h3
      omega
    · intro z hz hzN hzk hzkM hcert2
      have hfz : fdist f g N M z (z - 0) = 0 := by omega
      obtain ⟨-, hmz⟩ := fdist_eq_zero f g hz hzN hzk hzkM hfz
      apply snake_ge f g 0 (0 - 0) z hzN (by omega)
      intro i h1 h2
      rw [show (0 : Int) - 0 + (i - 0) = i from by ring]
      exact hmz i h1 h2
  · -- rounds `D ≥ 1`
    obtain ⟨heq, hcase⟩ | ⟨heq, hkD, hcmp⟩ := stepX0_cases V D k
    · -- down-move: the start is `V (k+1)`
      have hupA : Ent f g N M (D - 1) (k + 1) (V (k + 1)) := by
        apply hup (by omega)
        rcases hcase with h | h
        · omega
        · have := h.1; omega
      obtain ⟨hEnn, hEk, hEc, hEdom⟩ := hupA
      have hcert : (fdist f g N M (V (k + 1)) (V (k + 1) - k) : Int) ≤ D := by
        have h1 := fdist_vstep_le f g N (V (k + 1)) (M := M) (y := V (k + 1) - (k + 1)) hM
          (by omega)
        rw [show V (k + 1) - (k + 1) + 1 = V (k + 1) - k from by ring] at h1
        omega
      refine ⟨?_, by rw [heq]; omega, by rw [heq]; omega, by rw [heq]; exact hcert⟩
      unfold stepCore
      rw [heq]
      apply step_Ent_assemble f g (V (k + 1)) hN hM hD hEnn (by omega) hcert ?_ ?_
      · intro z hz hzN hzk hzkM hc
        exact hEdom z hz hzN hzk hzkM hc
      · intro z hz hzN hzk hzkM hc
        by_cases hkmD : k = -D
        · have hdb := (fdist_diag_bound f g (x := z) (y := z - (k - 1)) hz hzN hzk hzkM).2
          omega
        · rcases hcase with h | h
          · exact absurd h hkmD
          · have hdnA : Ent f g N M (D - 1) (k - 1) (V (k - 1)) :=
              hdn (by omega) (by omega)
            have := hdnA.2.2.2 z hz hzN hzk hzkM hc
            omega
    · -- right-move: the start is `V (k-1) + 1`
      have hdnB : Ent f g N M (D - 1) (k - 1) (V (k - 1)) := hdn (by omega) (by omega)
      obtain ⟨hEnn, hEk, hEc, hEdom⟩ := hdnB
      have hcert : (fdist f g N M (V (k - 1) + 1) (V (k - 1) + 1 - k) : Int) ≤ D := by
        have h1 := fdist_hstep_le f g (M := M) (V (k - 1) - (k - 1)) (N := N) (x := V (k - 1))
          hN (by omega)
        rw [show V (k - 1) + 1 - k = V (k - 1) - (k - 1) from by ring]
        omega
      refine ⟨?_, by rw [heq]; omega, by rw [heq]; omega, by rw [heq]; exact hcert⟩
      unfold stepCore
      rw [heq]
      apply step_Ent_assemble f g (V (k - 1) + 1) hN hM hD (by omega) (by omega) hcert ?_ ?_
      · intro z hz hzN hzk hzkM hc
        by_cases hkD2 : k = D
        · have hdb := (fdist_diag_bound f g (x := z) (y := z - (k + 1)) hz hzN hzk hzkM).1
          omega
        · have hupB : Ent f g N M (D - 1) (k + 1) (V (k + 1)) := hup (by omega) (by omega)
          have h2 := hupB.2.2.2 z hz hzN hzk hzkM hc
          have h3 := hcmp hkD2
          omega
      · intro z hz hzN hzk hzkM hc
        have := hEdom z hz hzN hzk hzkM hc
        omega

/-! ## The loop bodies in terms of `stepCore` -/

theorem fwdDiag_fst (a b : Int → Int) (N M Delta D : Int) (Vb : Int → Int)
    (k : Int) (Vf : Int → Int) :
    (fwdDiag a b N M Delta D Vb k Vf).1 = upd Vf k (stepCore a b N M Vf D k) := by
  unfold fwdDiag stepCore stepX0
  dsimp only
  split <;> split <;> rfl

theorem bwdDiag_fst (a b : Int → Int) (N M Delta D : Int) (Vf : Int → Int)
    (k : Int) (Vb : Int → Int) :
    (bwdDiag a b N M Delta D Vf k Vb).1 =
      upd Vb k (stepCore (fun i => a (N - i - 1)) (fun j => b (M - j - 1)) N M Vb D k) := by
  unfold bwdDiag stepCore stepX0
  dsimp only
  split <;> split <;> rfl

/-- A forward body that fires: the guard was satisfied by the written value
and the tuple is built from the tie-broken start. -/
theorem fwdDiag_some_eq {a b : Int → Int} {N M Delta D k : Int} {Vf Vb : Int → Int} {r : Snake}
    (h : (fwdDiag a b N M Delta D Vb k Vf).2 = some r) :
    (((Int.tmod Delta 2).natAbs = 1 ∧ -(D - 1) ≤ -(k - Delta) ∧ -(k - Delta) ≤ D - 1) ∧
      stepCore a b N M Vf D k + Vb (-(k - Delta)) ≥ N) ∧
    r = (2 * D - 1, stepX0 Vf D k, stepX0 Vf D k - k,
      (snake a b N M (stepX0 Vf D k) (stepX0 Vf D k - k)).1,
      (snake a b N M (stepX0 Vf D k) (stepX0 Vf D k - k)).2) := by
  unfold fwdDiag at h
  dsimp only at h
  unfold stepCore stepX0
  split at h
  · rename_i htb
    rw [if_pos htb]
    split at h
    · rename_i hpos
      simp only [upd_same] at hpos
      simp only [Option.some.injEq] at h
      exact ⟨hpos, h.symm⟩
    · simp at h
  · rename_i htb
    rw [if_neg htb]
    split at h
    · rename_i hpos
      simp only [upd_same] at hpos
      simp only [Option.some.injEq] at h
      exact ⟨hpos, h.symm⟩
    · simp at h

/-- A forward body that does not fire: the guard is false for the written
value. -/
theorem fwdDiag_none {a b : Int → Int} {N M Delta D k : Int} {Vf Vb : Int → Int}
    (h : (fwdDiag a b N M Delta D Vb k Vf).2 = none) :
    ¬ (((Int.tmod Delta 2).natAbs = 1 ∧ -(D - 1) ≤ -(k - Delta) ∧ -(k - Delta) ≤ D - 1) ∧
       stepCore a b N M Vf D k + Vb (-(k - Delta)) ≥ N) := by
  unfold fwdDiag at h
  dsimp only at h
  unfold stepCore stepX0
  split at h
  · rename_i htb
    rw [if_pos htb]
    split at h
    · simp at h
    · rename_i hneg
      simp only [upd_same] at hneg
      exact hneg
  · rename_i htb
    rw [if_neg htb]
    split at h
    · simp at h
    · rename_i hneg
      simp only [upd_same] at hneg
      exact hneg

theorem bwdDiag_some_eq {a b : Int → Int} {N M Delta D k : Int} {Vf Vb : Int → Int} {r : Snake}
    (h : (bwdDiag a b N M Delta D Vf k Vb).2 = some r) :
    ((Int.tmod Delta 2 = 0 ∧ -D ≤ -(k - Delta) ∧ -(k - Delta) ≤ D) ∧
      stepCore (fun i => a (N - i - 1)) (fun j => b (M - j - 1)) N M Vb D k +
        Vf (-(k - Delta)) ≥ N) ∧
    r = (2 * D,
      N - (snake (fun i => a (N - i - 1)) (fun j => b (M - j - 1)) N M (stepX0 Vb D k)
        (stepX0 Vb D k - k)).1,
      M - (snake (fun i => a (N - i - 1)) (fun j => b (M - j - 1)) N M (stepX0 Vb D k)
        (stepX0 Vb D k - k)).2,
      N - stepX0 Vb D k, M - (stepX0 Vb D k - k)) := by
  unfold bwdDiag at h
  dsimp only at h
  unfold stepCore stepX0
  split at h
  · rename_i htb
    rw [if_pos htb]
    split at h
    · rename_i hpos
      simp only [upd_same] at hpos
      simp only [Option.some.injEq] at h
      exact ⟨hpos, h.symm⟩
    · simp at h
  · rename_i htb
    rw [if_neg htb]
    split at h
    · rename_i hpos
      simp only [upd_same] at hpos
      simp only [Option.some.injEq] at h
      exact ⟨hpos, h.symm⟩
    · simp at h

theorem bwdDiag_none {a b : Int → Int} {N M Delta D k : Int} {Vf Vb : Int → Int}
    (h : (bwdDiag a b N M Delta D Vf k Vb).2 = none) :
    ¬ ((Int.tmod Delta 2 = 0 ∧ -D ≤ -(k - Delta) ∧ -(k - Delta) ≤ D) ∧
       stepCore (fun i => a (N - i - 1)) (fun j => b (M - j - 1)) N M Vb D k +
         Vf (-(k - Delta)) ≥ N) := by
  unfold bwdDiag at h
  dsimp only at h
  unfold stepCore stepX0
  split at h
  · rename_i htb
    rw [if_pos htb]
    split at h
    · simp at h
    · rename_i hneg
      simp only [upd_same] at hneg
      exact hneg
  · rename_i htb
    rw [if_neg htb]
    split at h
    · simp at h
    · rename_i hneg
      simp only [upd_same] at hneg
      exact hneg

/-! ## The diagonal list of one pass -/

theorem kList_mem {D k : Int} (hD : 0 ≤ D) :
    k ∈ kList D ↔ -D ≤ k ∧ k ≤ D ∧ (k + D) % 2 = 0 := by
  unfold kList
  simp only [List.mem_map, List.mem_range]
  constructor
  · rintro ⟨i, hi, rfl⟩
    refine ⟨by omega, by omega, by omega⟩
  · rintro ⟨h1, h2, h3⟩
    exact ⟨((k + D) / 2).toNat, by omega, by omega⟩

theorem kList_nodup (D : Int) : (kList D).Nodup := by
  unfold kList
  refine List.Nodup.map ?_ (List.nodup_range _)
  intro i j h
  have h2 : -D + 2 * (i : Int) = -D + 2 * (j : Int) := h
  omega

/-! ## A whole pass, when it does not fire and when it does -/

/-- If a pass whose bodies all write `upd V k (c V k)` (with `c` reading only
the two neighbouring diagonals) runs to completion without firing, then the
final array holds exactly the values computed from the initial one, nothing
else changed, and the guard abstraction `G` failed at every processed
diagonal. -/
theorem diagPass_none_spec
    (step : Int → (Int → Int) → (Int → Int) × Option Snake)
    (c : (Int → Int) → Int → Int) (G : Int → Int → Prop) (par : Int)
    (hfst : ∀ k V, (step k V).1 = upd V k (c V k))
    (hcongr : ∀ (V W : Int → Int) (k : Int), V (k - 1) = W (k - 1) → V (k + 1) = W (k + 1) →
      c V k = c W k)
    (hnone : ∀ k V, (step k V).2 = none → ¬ G k (c V k)) :
    ∀ (ks : List Int), ks.Nodup → (∀ k ∈ ks, (k + par) % 2 = 0) →
    ∀ (V V' : Int → Int), diagPass step ks V = (V', none) →
      (∀ j, j ∉ ks → V' j = V j) ∧
      (∀ k ∈ ks, V' k = c V k) ∧
      (∀ k ∈ ks, ¬ G k (c V k)) := by
  intro ks
  induction ks with
  | nil =>
    intro _ _ V V' h
    simp only [diagPass, Prod.mk.injEq] at h
    exact ⟨fun j _ => by rw [← h.1], fun k hk => absurd hk (List.not_mem_nil k),
      fun k hk => absurd hk (List.not_mem_nil k)⟩
  | cons k0 ks ih =>
    intro hnd hpar V V' h
    simp only [diagPass] at h
    rcases hs : step k0 V with ⟨W, o⟩
    rw [hs] at h
    cases o with
    | some r => simp at h
    | none =>
      have hW : W = upd V k0 (c V k0) := by
        have h2 := hfst k0 V
        rw [hs] at h2
        exact h2
      have hG0 : ¬ G k0 (c V k0) := hnone k0 V (by rw [hs])
      obtain ⟨P0, P1, P2⟩ := ih (List.Nodup.of_cons hnd)
        (fun k hk => hpar k (List.mem_cons_of_mem _ hk)) W V' h
      have hk0nin : k0 ∉ ks := (List.nodup_cons.mp hnd).1
      have hk0par := hpar k0 (List.mem_cons_self _ _)
      refine ⟨?_, ?_, ?_⟩
      · intro j hj
        have hj1 : j ∉ ks := fun hh => hj (List.mem_cons_of_mem _ hh)
        have hj2 : j ≠ k0 := fun hh => hj (hh ▸ List.mem_cons_self _ _)
        rw [P0 j hj1, hW, upd_ne _ _ _ _ hj2]
      · intro k hk
        rcases List.mem_cons.mp hk with rfl | hk2
        · rw [P0 k hk0nin, hW, upd_same]
        · rw [P1 k hk2, hW]
          have hkp := hpar k (List.mem_cons_of_mem _ hk2)
          exact hcongr _ _ _ (upd_ne _ _ _ _ (by omega)) (upd_ne _ _ _ _ (by omega))
      · intro k hk
        rcases List.mem_cons.mp hk with rfl | hk2
        · exact hG0
        · have hkp := hpar k (List.mem_cons_of_mem _ hk2)
          have hcw : c W k = c V k := by
            rw [hW]
            exact hcongr _ _ _ (upd_ne _ _ _ _ (by omega)) (upd_ne _ _ _ _ (by omega))
          rw [← hcw]
          exact P2 k hk2

/-- A pass that fires does so at some processed diagonal, on an array that
agrees with the initial one on both neighbouring diagonals. -/
theorem diagPass_some_spec
    (step : Int → (Int → Int) → (Int → Int) × Option Snake)
    (c : (Int → Int) → Int → Int) (par : Int)
    (hfst : ∀ k V, (step k V).1 = upd V k (c V k)) :
    ∀ (ks : List Int), (∀ k ∈ ks, (k + par) % 2 = 0) →
    ∀ (V V' : Int → Int) (r : Snake), diagPass step ks V = (V', some r) →
      ∃ k ∈ ks, ∃ Vm : Int → Int, Vm (k - 1) = V (k - 1) ∧ Vm (k + 1) = V (k + 1) ∧
        (step k Vm).2 = some r := by
  intro ks
  induction ks with
  | nil => intro _ V V' r h; simp [diagPass] at h
  | cons k0 ks ih =>
    intro hpar V V' r h
    simp only [diagPass] at h
    rcases hs : step k0 V with ⟨W, o⟩
    rw [hs] at h
    cases o with
    | some r0 =>
      simp only [Prod.mk.injEq, Option.some.injEq] at h
      refine ⟨k0, List.mem_cons_self _ _, V, rfl, rfl, ?_⟩
      rw [hs]
      exact congrArg some h.2
    | none =>
      have hW : W = upd V k0 (c V k0) := by
        have h2 := hfst k0 V
        rw [hs] at h2
        exact h2
      obtain ⟨k, hk, Vm, h1, h2, h3⟩ := ih
        (fun k hk => hpar k (List.mem_cons_of_mem _ hk)) W V' r h
      have hkp := hpar k (List.mem_cons_of_mem _ hk)
      have hk0p := hpar k0 (List.mem_cons_self _ _)
      refine ⟨k, List.mem_cons_of_mem _ hk, Vm, ?_, ?_, h3⟩
      · rw [h1, hW, upd_ne _ _ _ _ (by omega)]
      · rw [h2, hW, upd_ne _ _ _ _ (by omega)]

/-! ## The outer round list -/

/-- The tail of the round counter sequence, starting at `D0`. -/
def dTail (D0 : Int) (n : Nat) : List Int :=
  (List.range n).map fun i : Nat => D0 + (i : Int)

theorem dTail_succ (D0 : Int) (n : Nat) : dTail D0 (n + 1) = D0 :: dTail (D0 + 1) n := by
  unfold dTail
  rw [List.range_succ_eq_map]
  simp only [List.map_cons, List.map_map]
  congr 1
  · simp
  · apply List.map_congr_left
    intro i _
    simp only [Function.comp_apply]
    push_cast
    ring

theorem dList_eq_dTail (MAX : Int) : dList MAX = dTail 0 (ceilHalf MAX + 1).toNat := by
  unfold dList dTail
  apply List.map_congr_left
  intro i _
  omega

/-! ## Values of the potentials at the borders, and congruence -/

theorem listOfF_congr {f g : Int → Int} (n : Int)
    (h : ∀ i : Int, 0 ≤ i → i < n → f i = g i) : listOfF f n = listOfF g n := by
  unfold listOfF
  apply List.map_congr_left
  intro i hi
  refine h i (by positivity) ?_
  have := List.mem_range.mp hi
  omega

theorem fdist_congr {f f2 g g2 : Int → Int} (N M x y : Int)
    (hf : ∀ i : Int, 0 ≤ i → i < N → f i = f2 i)
    (hg : ∀ j : Int, 0 ≤ j → j < M → g j = g2 j) :
    fdist f g N M x y = fdist f2 g2 N M x y := by
  unfold fdist
  rw [listOfF_congr (min x N) (fun i h1 h2 => hf i h1 (by omega)),
    listOfF_congr (min y M) (fun j h1 h2 => hg j h1 (by omega))]

/-- Reversing both sequences preserves the full edit distance. -/
theorem ed_rev_lists (a b : Int → Int) {N M : Int} (hN : 0 ≤ N) (hM : 0 ≤ M) :
    ed (listOfF (fun i => a (N - i - 1)) N) (listOfF (fun j => b (M - j - 1)) M)
      = ed (listOfF a N) (listOfF b M) := by
  have h1 : (listOfF (fun i => a (N - i - 1)) N).reverse = listOfF a N := by
    rw [listOfF_rev_eq_int a (N := N) (z := N) hN le_rfl, show N - N = 0 from by ring,
      shift_zero]
  have h2 : (listOfF (fun j => b (M - j - 1)) M).reverse = listOfF b M := by
    rw [listOfF_rev_eq_int b (N := M) (z := M) hM le_rfl, show M - M = 0 from by ring,
      shift_zero]
  rw [← h1, ← h2, ed_reverse]

/-- The mirror image of `hdist_eq_fdist_rev`. -/
theorem hdist_rev_eq_fdist (a b : Int → Int) {N M : Int} (x y : Int)
    (hN : 0 ≤ N) (hM : 0 ≤ M) :
    hdist (fun i => a (N - i - 1)) (fun j => b (M - j - 1)) N M x y
      = fdist a b N M (N - x) (M - y) := by
  rw [hdist_eq_fdist_rev (fun i => a (N - i - 1)) (fun j => b (M - j - 1)) x y hN hM]
  apply fdist_congr
  · intro i h1 h2
    show a (N - (N - i - 1) - 1) = a i
    congr 1
    ring
  · intro j h1 h2
    show b (M - (M - j - 1) - 1) = b j
    congr 1
    ring

theorem fdist_right (a b : Int → Int) {N M x y : Int}
    (hx : N ≤ x) (hy0 : 0 ≤ y) (hyM : y ≤ M) :
    (fdist a b N M x y : Int) = ed (listOfF a N) (listOfF b y) + (x - N) := by
  unfold fdist
  rw [min_eq_right hx, min_eq_left hyM, ed_reverse]
  push_cast
  omega

theorem fdist_bottom (a b : Int → Int) {N M x y : Int}
    (hx0 : 0 ≤ x) (hxN : x ≤ N) (hy : M ≤ y) :
    (fdist a b N M x y : Int) = ed (listOfF a x) (listOfF b M) + (y - M) := by
  unfold fdist
  rw [min_eq_left hxN, min_eq_right hy, ed_reverse]
  push_cast
  omega

theorem fdist_overshoot (a b : Int → Int) {N M x y : Int}
    (hx : N ≤ x) (hy : M ≤ y) :
    (fdist a b N M x y : Int) = ed (listOfF a N) (listOfF b M) + (x - N) + (y - M) := by
  unfold fdist
  rw [min_eq_right hx, min_eq_right hy, ed_reverse]
  push_cast
  omega

theorem hdist_right_edge (a b : Int → Int) {N M u v : Int}
    (hN : 0 ≤ N) (hM : 0 ≤ M) (hu : N ≤ u) (hv : v ≤ M) :
    (hdist a b N M u v : Int) = M - v := by
  unfold hdist
  rw [sufList_top a (by omega), ed_nil_left]
  rcases le_or_lt 0 v with h0 | h0
  · unfold sufList
    rw [max_eq_left h0, listOfF_length]
    omega
  · rw [sufList_neg b (by omega), sufList_zero, listOfF_length]
    omega

theorem hdist_bottom_edge (a b : Int → Int) {N M u v : Int}
    (hM : 0 ≤ M) (hu0 : 0 ≤ u) (huN : u ≤ N) (hv : M ≤ v) :
    (hdist a b N M u v : Int) = N - u := by
  unfold hdist
  rw [sufList_top b hv, ed_nil_right]
  unfold sufList
  rw [max_eq_left hu0, listOfF_length]
  push_cast
  omega

theorem ed_full_le_right (a b : Int → Int) {N M y : Int} (hy0 : 0 ≤ y) (hyM : y ≤ M) :
    (ed (listOfF a N) (listOfF b M) : Int) ≤ ed (listOfF a N) (listOfF b y) + (M - y) := by
  rw [listOfF_append b hy0 hyM]
  have h1 := ed_le_append_end (listOfF a N) (listOfF b y) (sufList b M y)
  have h2 : (sufList b M y).length = (M - max y 0).toNat := by
    unfold sufList
    rw [listOfF_length]
  push_cast
  omega

theorem ed_full_le_left (a b : Int → Int) {N M x : Int} (hx0 : 0 ≤ x) (hxN : x ≤ N) :
    (ed (listOfF a N) (listOfF b M) : Int) ≤ ed (listOfF a x) (listOfF b M) + (N - x) := by
  rw [listOfF_append a hx0 hxN]
  have h1 := ed_le_append_end_left (listOfF a x) (sufList a N x) (listOfF b M)
  have h2 : (sufList a N x).length = (N - max x 0).toNat := by
    unfold sufList
    rw [listOfF_length]
  push_cast
  omega

/-- The snake keeps the potential exactly: matching diagonal moves do not
change `fdist` at all. -/
theorem snakeGo_fdist_eq (f g : Int → Int) (N M : Int) :
    ∀ (fuel : Nat) (x y : Int), 0 ≤ x → 0 ≤ y →
      fdist f g N M (snakeGo f g N M fuel x y).1 (snakeGo f g N M fuel x y).2
        = fdist f g N M x y := by
  intro fuel
  induction fuel with
  | zero => intro x y _ _; simp [snakeGo]
  | succ n ih =>
    intro x y hx hy
    simp only [snakeGo]
    split
    · rename_i hc
      rw [ih (x + 1) (y + 1) (by omega) (by omega)]
      exact fdist_match f g hx hc.1 hy hc.2.1 hc.2.2
    · simp

theorem snake_fdist_eq (f g : Int → Int) {N M : Int} (x y : Int) (hx : 0 ≤ x) (hy : 0 ≤ y) :
    fdist f g N M (snake f g N M x y).1 (snake f g N M x y).2 = fdist f g N M x y :=
  snakeGo_fdist_eq f g N M _ x y hx hy

/-! ## The middle-snake property package -/

/-- Everything the divide-and-conquer layer needs from a returned middle
snake `(d, x, y, u, v)`: its cost equals the edit distance, the snake is a
valid in-grid matching diagonal run, and the two sub-problems' distances
split the total exactly with neither side dominating. -/
def MidP (a b : Int → Int) (N M d x y u v : Int) : Prop :=
  (d : Int) = (ed (listOfF a N) (listOfF b M) : Int) ∧
  0 ≤ x ∧ x ≤ u ∧ u ≤ N ∧ 0 ≤ y ∧ y ≤ v ∧ v ≤ M ∧
  u - x = v - y ∧
  (∀ i : Int, x ≤ i → i < u → a i = b (y + (i - x))) ∧
  (fdist a b N M x y : Int) + (hdist a b N M u v : Int) = d ∧
  2 * (fdist a b N M x y : Int) ≤ d + 1 ∧ 2 * (hdist a b N M u v : Int) ≤ d + 1

/-- Soundness of an overlap fire: two certificates whose positions overlap
bound the whole edit distance by the sum of their levels. -/
theorem fire_sound_le (f g : Int → Int) {N M : Int} (cf cb u w k k2 : Int)
    (hN : 0 ≤ N) (hM : 0 ≤ M)
    (hk2 : k2 = (N - M) - k)
    (hcU : (fdist f g N M u (u - k) : Int) ≤ cf)
    (hcw : (fdist (fun i => f (N - i - 1)) (fun j => g (M - j - 1)) N M w (w - k2) : Int) ≤ cb)
    (hover : u + w ≥ N) :
    (ed (listOfF f N) (listOfF g M) : Int) ≤ cf + cb := by
  have h1 := ed_le_fdist_add_hdist f g (N - w) (N - w - k) hN hM
  have h2 := fdist_diag_chain_all f g (N - w) (N - w - k) u (u - k) hN hM (by ring) (by omega)
  have h3 : (hdist f g N M (N - w) (N - w - k) : Int) ≤ cb := by
    rw [hdist_eq_fdist_rev f g (N - w) (N - w - k) hN hM]
    rw [show N - (N - w) = w from by ring, show M - (N - w - k) = w - k2 from by omega]
    exact hcw
  omega

/-- The full property package at an overlap fire, once the cost is known to
equal the edit distance. -/
theorem fire_props (f g : Int → Int) {N M : Int} (cf cb X w k k2 : Int)
    (hN : 0 ≤ N) (hM : 0 ≤ M)
    (hcb : 0 ≤ cb) (hcbf : cb ≤ cf + 1) (hcbf2 : cf ≤ cb + 1)
    (hk2 : k2 = (N - M) - k)
    (hX0 : 0 ≤ X) (hXk : k ≤ X)
    (hcX : (fdist f g N M X (X - k) : Int) ≤ cf)
    (hw0 : 0 ≤ w)
    (hcw : (fdist (fun i => f (N - i - 1)) (fun j => g (M - j - 1)) N M w (w - k2) : Int) ≤ cb)
    (hover : (snake f g N M X (X - k)).1 + w ≥ N)
    (hE : (ed (listOfF f N) (listOfF g M) : Int) = cf + cb) :
    MidP f g N M (cf + cb) X (X - k)
      (snake f g N M X (X - k)).1 (snake f g N M X (X - k)).2 := by
  have hsub := snake_sub f g N M X (X - k)
  have hsle := snake_le f g N M X (X - k)
  have hfeq := snake_fdist_eq f g (N := N) (M := M) X (X - k) hX0 (by omega)
  have hs10 : 0 ≤ (snake f g N M X (X - k)).1 := by omega
  have hs2eq : (snake f g N M X (X - k)).2 = (snake f g N M X (X - k)).1 - k := by omega
  -- the chain through the mirrored overlap point
  have h1 := ed_le_fdist_add_hdist f g (N - w) (N - w - k) hN hM
  have h2 := fdist_diag_chain_all f g (N - w) (N - w - k)
    (snake f g N M X (X - k)).1 ((snake f g N M X (X - k)).1 - k) hN hM (by ring) (by omega)
  rw [← hs2eq] at h2
  have h3 : (hdist f g N M (N - w) (N - w - k) : Int) ≤ cb := by
    rw [hdist_eq_fdist_rev f g (N - w) (N - w - k) hN hM]
    rw [show N - (N - w) = w from by ring, show M - (N - w - k) = w - k2 from by omega]
    exact hcw
  have h4 : hdist f g N M (snake f g N M X (X - k)).1 (snake f g N M X (X - k)).2 ≤
      hdist f g N M (N - w) (N - w - k) := by
    apply hdist_diag_chain f g (N - w) (N - w - k) _ _ hN hM (by omega) (by omega)
  have h5 := ed_le_fdist_add_hdist f g (snake f g N M X (X - k)).1
    (snake f g N M X (X - k)).2 hN hM
  -- exact split of the distance
  have hsplit : (fdist f g N M X (X - k) : Int) +
      (hdist f g N M (snake f g N M X (X - k)).1 (snake f g N M X (X - k)).2 : Int) =
      cf + cb := by omega
  -- the snake end stays on the grid
  have huN : (snake f g N M X (X - k)).1 ≤ N := by
    by_contra hNu
    push_neg at hNu
    have hs20 : 0 ≤ (snake f g N M X (X - k)).2 := by omega
    rcases le_or_lt (snake f g N M X (X - k)).2 M with hvM | hvM
    · have hf1 := fdist_right f g (N := N) (x := (snake f g N M X (X - k)).1)
        (y := (snake f g N M X (X - k)).2) (by omega) hs20 hvM
      have hf2 := ed_full_le_right f g (N := N) hs20 hvM
      have hh1 := hdist_right_edge f g (u := (snake f g N M X (X - k)).1)
        (v := (snake f g N M X (X - k)).2) hN hM (by omega) hvM
      omega
    · have hf1 := fdist_overshoot f g (N := N) (M := M) (x := (snake f g N M X (X - k)).1)
        (y := (snake f g N M X (X - k)).2) (by omega) (by omega)
      omega
  have hvM : (snake f g N M X (X - k)).2 ≤ M := by
    by_contra hMv
    push_neg at hMv
    have hf1 := fdist_bottom f g (M := M) (x := (snake f g N M X (X - k)).1)
      (y := (snake f g N M X (X - k)).2) hs10 huN (by omega)
    have hf2 := ed_full_le_left f g (M := M) hs10 huN
    have hh1 := hdist_bottom_edge f g (u := (snake f g N M X (X - k)).1)
      (v := (snake f g N M X (X - k)).2) hM hs10 huN (by omega)
    omega
  refine ⟨hE.symm, hX0, hsle, huN, by omega, by omega, hvM, by omega, ?_, hsplit, by omega,
    by omega⟩
  intro i h1 h2
  exact (snake_matches f g i h1 h2).2.2

/-- Transporting the middle-snake package from the reversed problem back to
the original one. -/
theorem MidP_rev (a b : Int → Int) {N M : Int} (hN : 0 ≤ N) (hM : 0 ≤ M)
    {d x y u v : Int}
    (h : MidP (fun i => a (N - i - 1)) (fun j => b (M - j - 1)) N M d x y u v) :
    MidP a b N M d (N - u) (M - v) (N - x) (M - y) := by
  obtain ⟨h1, h2, h3, h4, h5, h6, h7, h8, h9, h10, h11, h12⟩ := h
  have hrr := ed_rev_lists a b hN hM
  refine ⟨by omega, by omega, by omega, by omega, by omega, by omega, by omega, by omega,
    ?_, ?_, ?_, ?_⟩
  · intro i hi1 hi2
    have hbij : a (N - (N - 1 - i) - 1) = b (M - (y + ((N - 1 - i) - x)) - 1) :=
      h9 (N - 1 - i) (by omega) (by omega)
    calc a i = a (N - (N - 1 - i) - 1) := by congr 1; ring
      _ = b (M - (y + ((N - 1 - i) - x)) - 1) := hbij
      _ = b ((M - v) + (i - (N - u))) := by congr 1; omega
  · rw [← hdist_rev_eq_fdist a b u v hN hM]
    rw [hdist_eq_fdist_rev a b (N - x) (M - y) hN hM]
    rw [show N - (N - x) = x from by ring, show M - (M - y) = y from by ring]
    omega
  · rw [← hdist_rev_eq_fdist a b u v hN hM]
    omega
  · rw [hdist_eq_fdist_rev a b (N - x) (M - y) hN hM]
    rw [show N - (N - x) = x from by ring, show M - (M - y) = y from by ring]
    omega

/-! ## Completeness: the searches must meet -/

theorem hdist_grid (a b : Int → Int) {N M x y : Int} (hx : 0 ≤ x) (hy : 0 ≤ y) :
    hdist a b N M x y = ed (sufList a N x) (sufList b M y) := by
  unfold hdist
  have h1 : (-x).toNat = 0 := by omega
  have h2 : (-y).toNat = 0 := by omega
  rw [h1, h2]
  omega

/-- Overall parity: the edit distance has the parity of `N + M`. -/
theorem ed_delta_parity (a b : Int → Int) {N M : Int} (hN : 0 ≤ N) (hM : 0 ≤ M) :
    ∃ l : Nat, (ed (listOfF a N) (listOfF b M) : Int) = N + M - 2 * l := by
  refine ⟨lcs (listOfF a N) (listOfF b M), ?_⟩
  have h := ed_eq_lcs (listOfF a N) (listOfF b M)
  simp only [listOfF_length] at h
  omega

/-- An optimal path can be cut at any intermediate cost `t`: some grid point
has prefix potential `≤ t` and suffix potential `≤ E - t`. -/
theorem exists_split_point (a b : Int → Int) {N M : Int} (hN : 0 ≤ N) (hM : 0 ≤ M) (t : Nat)
    (ht : t ≤ ed (listOfF a N) (listOfF b M)) :
    ∃ x y : Int, 0 ≤ x ∧ x ≤ N ∧ 0 ≤ y ∧ y ≤ M ∧
      fdist a b N M x y ≤ t ∧
      hdist a b N M x y + t ≤ ed (listOfF a N) (listOfF b M) := by
  obtain ⟨A1, A2, B1, B2, hA, hB, h1, h2⟩ := ed_split (listOfF a N) (listOfF b M) t ht
  have hxN : (A1.length : Int) ≤ N := by
    have := congrArg List.length hA
    simp only [List.length_append, listOfF_length] at this
    omega
  have hyM : (B1.length : Int) ≤ M := by
    have := congrArg List.length hB
    simp only [List.length_append, listOfF_length] at this
    omega
  have hsA := listOfF_append a (x := (A1.length : Int)) (by positivity) hxN
  rw [hA] at hsA
  obtain ⟨eA1, eA2⟩ := List.append_inj hsA (by rw [listOfF_length]; omega)
  have hsB := listOfF_append b (x := (B1.length : Int)) (by positivity) hyM
  rw [hB] at hsB
  obtain ⟨eB1, eB2⟩ := List.append_inj hsB (by rw [listOfF_length]; omega)
  refine ⟨A1.length, B1.length, by positivity, hxN, by positivity, hyM, ?_, ?_⟩
  · rw [fdist_grid a b hxN hyM, ← eA1, ← eB1]
    exact h1
  · rw [hdist_grid a b (by positivity) (by positivity), ← eA2, ← eB2]
    exact h2

/-- When the distance is odd, there is a diagonal where the forward overlap
check must succeed in round `D = (E+1)/2`: a grid point of exact forward
potential `D` whose mirror lies within reach of the backward search at
level `D-1`. -/
theorem complete_fwd (a b : Int → Int) {N M D : Int} (hN : 0 ≤ N) (hM : 0 ≤ M) (hD1 : 1 ≤ D)
    (hE : (ed (listOfF a N) (listOfF b M) : Int) = 2 * D - 1) :
    ∃ k x : Int, -D ≤ k ∧ k ≤ D ∧ (k + D) % 2 = 0 ∧
      0 ≤ x ∧ x ≤ N ∧ 0 ≤ x - k ∧ x - k ≤ M ∧
      (fdist a b N M x (x - k) : Int) = D ∧
      -(D - 1) ≤ -(k - (N - M)) ∧ -(k - (N - M)) ≤ D - 1 ∧
      0 ≤ N - x ∧ N - x ≤ N ∧
      0 ≤ (N - x) - ((N - M) - k) ∧ (N - x) - ((N - M) - k) ≤ M ∧
      (fdist (fun i => a (N - i - 1)) (fun j => b (M - j - 1)) N M (N - x)
        ((N - x) - ((N - M) - k)) : Int) ≤ D - 1 := by
  obtain ⟨x, y, hx0, hxN, hy0, hyM, hf, hh⟩ :=
    exists_split_point a b hN hM D.toNat (by omega)
  have hsub := ed_le_fdist_add_hdist a b (x := x) (y := y) hN hM
  have hfex : (fdist a b N M x y : Int) = D := by omega
  have hhex : (hdist a b N M x y : Int) = D - 1 := by omega
  have hdb := fdist_diag_bound a b hx0 hxN hy0 hyM
  obtain ⟨l, hpar⟩ := fdist_parity a b hx0 hxN hy0 hyM
  have hrev : (fdist (fun i => a (N - i - 1)) (fun j => b (M - j - 1)) N M (N - x)
      (M - y) : Int) = D - 1 := by
    rw [← hdist_eq_fdist_rev a b x y hN hM]
    exact hhex
  have hdbr := fdist_diag_bound (fun i => a (N - i - 1)) (fun j => b (M - j - 1))
    (N := N) (M := M) (x := N - x) (y := M - y) (by omega) (by omega) (by omega) (by omega)
  refine ⟨x - y, x, by omega, by omega, by omega, hx0, hxN, by omega, by omega, ?_,
    by omega, by omega, by omega, by omega, by omega, ?_⟩
  · rw [show x - (x - y) = y from by ring]
    exact hfex
  · rw [show (N - x) - ((N - M) - (x - y)) = M - y from by ring]
    omega

/-- When the distance is even, there is a diagonal where the backward
overlap check must succeed in round `D = E/2`. -/
theorem complete_bwd (a b : Int → Int) {N M D : Int} (hN : 0 ≤ N) (hM : 0 ≤ M) (hD : 0 ≤ D)
    (hE : (ed (listOfF a N) (listOfF b M) : Int) = 2 * D) :
    ∃ k x : Int, -D ≤ k ∧ k ≤ D ∧ (k + D) % 2 = 0 ∧
      (fdist (fun i => a (N - i - 1)) (fun j => b (M - j - 1)) N M x (x - k) : Int) = D ∧
      -D ≤ -(k - (N - M)) ∧ -(k - (N - M)) ≤ D ∧
      0 ≤ N - x ∧ N - x ≤ N ∧
      0 ≤ (N - x) - ((N - M) - k) ∧ (N - x) - ((N - M) - k) ≤ M ∧
      (fdist a b N M (N - x) ((N - x) - ((N - M) - k)) : Int) ≤ D := by
  have hErev : (ed (listOfF (fun i => a (N - i - 1)) N)
      (listOfF (fun j => b (M - j - 1)) M) : Int) = 2 * D := by
    rw [ed_rev_lists a b hN hM]
    exact hE
  obtain ⟨x, y, hx0, hxN, hy0, hyM, hf, hh⟩ :=
    exists_split_point (fun i => a (N - i - 1)) (fun j => b (M - j - 1)) hN hM D.toNat
      (by omega)
  have hsub := ed_le_fdist_add_hdist (fun i => a (N - i - 1)) (fun j => b (M - j - 1))
    (x := x) (y := y) hN hM
  have hfex : (fdist (fun i => a (N - i - 1)) (fun j => b (M - j - 1)) N M x y : Int)
      = D := by omega
  have hhex : (hdist (fun i => a (N - i - 1)) (fun j => b (M - j - 1)) N M x y : Int)
      = D := by omega
  have hdb := fdist_diag_bound (fun i => a (N - i - 1)) (fun j => b (M - j - 1))
    hx0 hxN hy0 hyM
  obtain ⟨l, hpar⟩ := fdist_parity (fun i => a (N - i - 1)) (fun j => b (M - j - 1))
    hx0 hxN hy0 hyM
  have hfwd : (fdist a b N M (N - x) (M - y) : Int) = D := by
    rw [← hdist_rev_eq_fdist a b x y hN hM]
    exact hhex
  have hdbf := fdist_diag_bound a b (N := N) (M := M) (x := N - x) (y := M - y)
    (by omega) (by omega) (by omega) (by omega)
  refine ⟨x - y, x, by omega, by omega, by omega, ?_, by omega, ?_,
    by omega, by omega, by omega, by omega, ?_⟩
  · rw [show x - (x - y) = y from by ring]
    exact hfex
  · omega
  · rw [show (N - x) - ((N - M) - (x - y)) = M - y from by ring]
    omega

/-! ## The main loop theorem -/

/-- What the divide-and-conquer layer gets from any returned tuple:
its cost is the edit distance, the middle-snake package holds, and the
degenerate `D = 1` empty-snake returns sit at the far corner with the
common prefix matching. -/
def GoodR (a b : Int → Int) (N M : Int) (r : Snake) : Prop :=
  (r.1 : Int) = (ed (listOfF a N) (listOfF b M) : Int) ∧
  MidP a b N M r.1 r.2.1 r.2.2.1 r.2.2.2.1 r.2.2.2.2 ∧
  (r.1 = 1 → r.2.1 = r.2.2.2.1 → r.2.2.1 = r.2.2.2.2 →
    r.2.1 = N ∧ r.2.2.1 = M ∧ ∀ i : Int, 0 ≤ i → i < min N M → a i = b i)

theorem dLoop_main (a b : Int → Int) {N M : Int} (hN : 0 ≤ N) (hM : 0 ≤ M) :
    ∀ (n : Nat) (D0 : Int) (Vf Vb : Int → Int), 0 ≤ D0 →
      2 * D0 - 2 < (ed (listOfF a N) (listOfF b M) : Int) →
      (ed (listOfF a N) (listOfF b M) : Int) ≤ 2 * (D0 + (n : Int)) - 2 →
      (∀ k : Int, -(D0 - 1) ≤ k → k ≤ D0 - 1 → (k + (D0 - 1)) % 2 = 0 →
        Ent a b N M (D0 - 1) k (Vf k)) →
      (∀ k : Int, -(D0 - 1) ≤ k → k ≤ D0 - 1 → (k + (D0 - 1)) % 2 = 0 →
        Ent (fun i => a (N - i - 1)) (fun j => b (M - j - 1)) N M (D0 - 1) k (Vb k)) →
      (D0 = 0 → Vf 1 = 0 ∧ Vb 1 = 0) →
      ∃ r : Snake, dLoop a b N M (N - M) (dTail D0 n) Vf Vb = some r ∧ GoodR a b N M r := by
  intro n
  induction n with
  | zero =>
    intro D0 Vf Vb hD0 hlow hfuel _ _ _
    exfalso
    push_cast at hfuel
    omega
  | succ n ih =>
    intro D0 Vf Vb hD0 hlow hfuel Hf Hb Hseed
    have hkpar : ∀ k ∈ kList D0, (k + D0) % 2 = 0 := fun k hk => ((kList_mem hD0).mp hk).2.2
    rw [dTail_succ]
    simp only [dLoop]
    rcases hfp : diagPass (fwdDiag a b N M (N - M) D0 Vb) (kList D0) Vf with ⟨Vf', o1⟩
    cases o1 with
    | some r =>
      -- the forward pass fired
      obtain ⟨k, hkmem, Vm, hm1, hm2, hfire⟩ :=
        diagPass_some_spec (fwdDiag a b N M (N - M) D0 Vb)
          (fun V k => stepCore a b N M V D0 k) D0
          (fun k V => fwdDiag_fst a b N M (N - M) D0 Vb k V)
          (kList D0) hkpar Vf Vf' r hfp
      obtain ⟨hk1, hk2, hkp⟩ := (kList_mem hD0).mp hkmem
      obtain ⟨⟨⟨hodd, hg1, hg2⟩, hsum⟩, hrEq⟩ := fwdDiag_some_eq hfire
      have hXeq : stepX0 Vm D0 k = stepX0 Vf D0 k := stepX0_congr D0 k hm1 hm2
      have hCeq : stepCore a b N M Vm D0 k = stepCore a b N M Vf D0 k :=
        stepCore_congr a b N M D0 k hm1 hm2
      rw [hXeq] at hrEq
      rw [hCeq] at hsum
      have hD01 : 1 ≤ D0 := by omega
      have hstep := step_Ent a b hN hM hD0 hk1 hk2 hkp
        (fun hA hB => Hf (k + 1) hA hB (by omega))
        (fun hA hB => Hf (k - 1) hA hB (by omega))
        (fun hz => by
          have hk0 : k = 0 := by omega
          rw [hk0, show (0 : Int) + 1 = 1 from by ring]
          exact (Hseed hz).1)
      obtain ⟨⟨hEnn, hEk, hEcert, hEdom⟩, hX0, hXk, hXcert⟩ := hstep
      have hDodd : ¬ (2 ∣ (N - M)) := (tmod_two_natAbs_eq_one_iff (N - M)).mp hodd
      have hbEnt := Hb (-(k - (N - M))) hg1 hg2 (by omega)
      obtain ⟨hw0, hwk, hwcert, hwdom⟩ := hbEnt
      have hcU : (fdist a b N M (stepCore a b N M Vf D0 k)
          (stepCore a b N M Vf D0 k - k) : Int) ≤ D0 := hEcert
      have hsle := fire_sound_le a b D0 (D0 - 1) (stepCore a b N M Vf D0 k)
        (Vb (-(k - (N - M)))) k (-(k - (N - M))) hN hM (by ring) hcU hwcert hsum
      obtain ⟨lE, hEpar⟩ := ed_delta_parity a b hN hM
      have hEeq : (ed (listOfF a N) (listOfF b M) : Int) = 2 * D0 - 1 := by omega
      have hmid0 := fire_props a b D0 (D0 - 1) (stepX0 Vf D0 k)
        (Vb (-(k - (N - M)))) k (-(k - (N - M))) hN hM (by omega) (by omega) (by omega)
        (by ring) hX0 hXk hXcert hw0 hwcert
        (by unfold stepCore at hsum; exact hsum) (by omega)
      rw [show D0 + (D0 - 1) = 2 * D0 - 1 from by ring] at hmid0
      subst hrEq
      refine ⟨(2 * D0 - 1, stepX0 Vf D0 k, stepX0 Vf D0 k - k,
        (snake a b N M (stepX0 Vf D0 k) (stepX0 Vf D0 k - k)).1,
        (snake a b N M (stepX0 Vf D0 k) (stepX0 Vf D0 k - k)).2), ?_, ?_, ?_, ?_⟩
      · rfl
      · show ((2 * D0 - 1 : Int) : Int) = _
        omega
      · show MidP a b N M (2 * D0 - 1) _ _ _ _
        exact hmid0
      · -- degenerate `D = 1` empty-snake return
        intro hd1 hxu hyv
        have hxu2 : stepX0 Vf D0 k =
            (snake a b N M (stepX0 Vf D0 k) (stepX0 Vf D0 k - k)).1 := hxu
        have hyv2 : stepX0 Vf D0 k - k =
            (snake a b N M (stepX0 Vf D0 k) (stepX0 Vf D0 k - k)).2 := hyv
        have hD1 : D0 = 1 := by omega
        have hkD : k = N - M := by omega
        obtain ⟨-, -, hP3, hP4, hP5, hP6, hP7, hP8, -, hP10, hP11, -⟩ := hmid0
        -- the split forces the suffix potential to vanish
        have hdb := fdist_diag_bound a b (N := N) (M := M) (x := stepX0 Vf D0 k)
          (y := stepX0 Vf D0 k - k) (by omega) (by omega) (by omega) (by omega)
        have hhz : (hdist a b N M (stepX0 Vf D0 k) (stepX0 Vf D0 k - k) : Int) = 0 := by
          rcases le_or_lt k 0 with hks | hks
          · have := hdb.2; rw [← hxu2, ← hyv2] at hP10; omega
          · have := hdb.1; rw [← hxu2, ← hyv2] at hP10; omega
        have hrz : fdist (fun i => a (N - i - 1)) (fun j => b (M - j - 1)) N M
            (N - stepX0 Vf D0 k) (M - (stepX0 Vf D0 k - k)) = 0 := by
          rw [← hdist_eq_fdist_rev a b _ _ hN hM] at *
          omega
        obtain ⟨-, hrevm⟩ := fdist_eq_zero (fun i => a (N - i - 1)) (fun j => b (M - j - 1))
          (x := N - stepX0 Vf D0 k) (y := M - (stepX0 Vf D0 k - k))
          (by omega) (by omega) (by omega) (by omega) hrz
        have hstop := snake_stop a b N M (stepX0 Vf D0 k) (stepX0 Vf D0 k - k)
        rw [← hxu2] at hstop
        have hs2 : (snake a b N M (stepX0 Vf D0 k) (stepX0 Vf D0 k - k)).2 =
            stepX0 Vf D0 k - k := by
          have := snake_sub a b N M (stepX0 Vf D0 k) (stepX0 Vf D0 k - k)
          rw [← hxu2] at this
          omega
        have hxN : stepX0 Vf D0 k = N := by
          by_contra hxNne
          have hxlt : stepX0 Vf D0 k < N := by omega
          have hylt : stepX0 Vf D0 k - k < M := by omega
          have hax : a (stepX0 Vf D0 k) = b (stepX0 Vf D0 k - k) := by
            have hii := hrevm (N - 1 - stepX0 Vf D0 k) (by omega) (by omega)
            calc a (stepX0 Vf D0 k)
                = a (N - (N - 1 - stepX0 Vf D0 k) - 1) := by congr 1; ring
              _ = b (M - (N - 1 - stepX0 Vf D0 k) - 1) := hii
              _ = b (stepX0 Vf D0 k - k) := by congr 1; omega
          exact hstop ⟨hxlt, by rw [hs2]; omega, by rw [hs2]; exact hax⟩
        have hyM : stepX0 Vf D0 k - k = M := by omega
        refine ⟨hxN, hyM, ?_⟩
        -- the common prefix matches, via the level-0 certificate
        have hEnt0 := Hf 0 (by omega) (by omega) (by omega)
        obtain ⟨hv0, -, hvc, -⟩ := hEnt0
        have hvz : fdist a b N M (Vf 0) (Vf 0 - 0) = 0 := by omega
        -- identify the tie-broken start with the round-0 stored value
        have hval : (k = -1 ∧ stepX0 Vf D0 k = Vf 0) ∨
            (k = 1 ∧ stepX0 Vf D0 k = Vf 0 + 1) := by
          rcases stepX0_cases Vf D0 k with ⟨heq, hcase⟩ | ⟨heq, hkne, hcmp⟩
          · have hkm1 : k = -1 := by
              rcases hcase with h | h
              · omega
              · have := h.1; omega
            refine Or.inl ⟨hkm1, ?_⟩
            rw [heq, show k + 1 = 0 from by omega]
          · have hk1' : k = 1 := by
              have := hkne
              omega
            refine Or.inr ⟨hk1', ?_⟩
            rw [heq, show k - 1 = 0 from by omega]
        obtain ⟨hexy, hpm⟩ := fdist_eq_zero a b (x := Vf 0) (y := Vf 0 - 0)
          hv0 (by rcases hval with h | h <;> omega) (by omega)
          (by rcases hval with h | h <;> omega) hvz
        intro i hi0 hi
        refine hpm i hi0 ?_
        rcases hval with h | h <;> omega

    | none =>
      -- the forward pass completed without firing
      obtain ⟨hVf'0, hVf'1, hVf'G⟩ := diagPass_none_spec (fwdDiag a b N M (N - M) D0 Vb)
        (fun V k => stepCore a b N M V D0 k)
        (fun k val => (((Int.tmod (N - M) 2).natAbs = 1 ∧
          -(D0 - 1) ≤ -(k - (N - M)) ∧ -(k - (N - M)) ≤ D0 - 1) ∧
          val + Vb (-(k - (N - M))) ≥ N)) D0
        (fun k V => fwdDiag_fst a b N M (N - M) D0 Vb k V)
        (fun V W k h1 h2 => stepCore_congr a b N M D0 k h1 h2)
        (fun k V h => fwdDiag_none h)
        (kList D0) (kList_nodup D0) hkpar Vf Vf' hfp
      have Hstep : ∀ k : Int, -D0 ≤ k → k ≤ D0 → (k + D0) % 2 = 0 →
          (Ent a b N M D0 k (stepCore a b N M Vf D0 k) ∧
           0 ≤ stepX0 Vf D0 k ∧ k ≤ stepX0 Vf D0 k ∧
           (fdist a b N M (stepX0 Vf D0 k) (stepX0 Vf D0 k - k) : Int) ≤ D0) := by
        intro k h1 h2 h3
        exact step_Ent a b hN hM hD0 h1 h2 h3
          (fun hA hB => Hf (k + 1) hA hB (by omega))
          (fun hA hB => Hf (k - 1) hA hB (by omega))
          (fun hz => by
            have hk0 : k = 0 := by omega
            rw [hk0, show (0 : Int) + 1 = 1 from by ring]
            exact (Hseed hz).1)
      have Hf' : ∀ k : Int, -D0 ≤ k → k ≤ D0 → (k + D0) % 2 = 0 →
          Ent a b N M D0 k (Vf' k) := by
        intro k h1 h2 h3
        rw [hVf'1 k ((kList_mem hD0).mpr ⟨h1, h2, h3⟩)]
        exact (Hstep k h1 h2 h3).1
      rcases hbp : diagPass (bwdDiag a b N M (N - M) D0 Vf') (kList D0) Vb with ⟨Vb', o2⟩
      cases o2 with
      | some r =>
        -- the backward pass fired
        obtain ⟨k, hkmem, Vm, hm1, hm2, hfire⟩ :=
          diagPass_some_spec (bwdDiag a b N M (N - M) D0 Vf')
            (fun V k => stepCore (fun i => a (N - i - 1)) (fun j => b (M - j - 1)) N M V D0 k)
            D0 (fun k V => bwdDiag_fst a b N M (N - M) D0 Vf' k V)
            (kList D0) hkpar Vb Vb' r hbp
        obtain ⟨hk1, hk2, hkp⟩ := (kList_mem hD0).mp hkmem
        obtain ⟨⟨⟨heven, hg1, hg2⟩, hsum⟩, hrEq⟩ := bwdDiag_some_eq hfire
        have hXeq : stepX0 Vm D0 k = stepX0 Vb D0 k := stepX0_congr D0 k hm1 hm2
        have hCeq : stepCore (fun i => a (N - i - 1)) (fun j => b (M - j - 1)) N M Vm D0 k
            = stepCore (fun i => a (N - i - 1)) (fun j => b (M - j - 1)) N M Vb D0 k :=
          stepCore_congr _ _ N M D0 k hm1 hm2
        rw [hXeq] at hrEq
        rw [hCeq] at hsum
        have hDeven : (2 : Int) ∣ (N - M) := (tmod_two_eq_zero_iff (N - M)).mp heven
        have hstep := step_Ent (fun i => a (N - i - 1)) (fun j => b (M - j - 1)) hN hM hD0
          hk1 hk2 hkp
          (fun hA hB => Hb (k + 1) hA hB (by omega))
          (fun hA hB => Hb (k - 1) hA hB (by omega))
          (fun hz => by
            have hk0 : k = 0 := by omega
            rw [hk0, show (0 : Int) + 1 = 1 from by ring]
            exact (Hseed hz).2)
        obtain ⟨⟨hEnn, hEk, hEcert, hEdom⟩, hX0, hXk, hXcert⟩ := hstep
        have hfEnt := Hf' (-(k - (N - M))) (by omega) (by omega) (by omega)
        obtain ⟨hw0, hwk, hwcert, hwdom⟩ := hfEnt
        have hwcert2 : (fdist
            (fun i => (fun i2 : Int => a (N - i2 - 1)) (N - i - 1))
            (fun j => (fun j2 : Int => b (M - j2 - 1)) (M - j - 1)) N M
            (Vf' (-(k - (N - M)))) (Vf' (-(k - (N - M))) - -(k - (N - M))) : Int) ≤ D0 := by
          rw [fdist_congr N M _ _
            (fun i h1 h2 => by show a (N - (N - i - 1) - 1) = a i; congr 1; ring)
            (fun j h1 h2 => by show b (M - (M - j - 1) - 1) = b j; congr 1; ring)]
          exact hwcert
        have hsle := fire_sound_le (fun i => a (N - i - 1)) (fun j => b (M - j - 1))
          D0 D0 (stepCore (fun i => a (N - i - 1)) (fun j => b (M - j - 1)) N M Vb D0 k)
          (Vf' (-(k - (N - M)))) k (-(k - (N - M))) hN hM (by ring) hEcert hwcert2 hsum
        rw [ed_rev_lists a b hN hM] at hsle
        obtain ⟨lE, hEpar⟩ := ed_delta_parity a b hN hM
        have hEeq : (ed (listOfF a N) (listOfF b M) : Int) = 2 * D0 := by omega
        have hmid0 := fire_props (fun i => a (N - i - 1)) (fun j => b (M - j - 1))
          D0 D0 (stepX0 Vb D0 k) (Vf' (-(k - (N - M)))) k (-(k - (N - M))) hN hM
          hD0 (by omega) (by omega) (by ring) hX0 hXk hXcert hw0 hwcert2
          (by unfold stepCore at hsum; exact hsum)
          (by rw [ed_rev_lists a b hN hM]; omega)
        rw [show D0 + D0 = 2 * D0 from by ring] at hmid0
        have hmid := MidP_rev a b hN hM hmid0
        subst hrEq
        refine ⟨(2 * D0,
          N - (snake (fun i => a (N - i - 1)) (fun j => b (M - j - 1)) N M (stepX0 Vb D0 k)
            (stepX0 Vb D0 k - k)).1,
          M - (snake (fun i => a (N - i - 1)) (fun j => b (M - j - 1)) N M (stepX0 Vb D0 k)
            (stepX0 Vb D0 k - k)).2,
          N - stepX0 Vb D0 k, M - (stepX0 Vb D0 k - k)), ?_, ?_, ?_, ?_⟩
        · dsimp only
          rw [hbp]
        · show ((2 * D0 : Int) : Int) = _
          omega
        · show MidP a b N M (2 * D0) _ _ _ _
          exact hmid
        · intro hd1
          exfalso
          dsimp only at hd1
          omega
      | none =>
        -- neither pass fired: the distance exceeds this round's reach
        obtain ⟨hVb'0, hVb'1, hVb'G⟩ := diagPass_none_spec (bwdDiag a b N M (N - M) D0 Vf')
          (fun V k => stepCore (fun i => a (N - i - 1)) (fun j => b (M - j - 1)) N M V D0 k)
          (fun k val => ((Int.tmod (N - M) 2 = 0 ∧
            -D0 ≤ -(k - (N - M)) ∧ -(k - (N - M)) ≤ D0) ∧
            val + Vf' (-(k - (N - M))) ≥ N)) D0
          (fun k V => bwdDiag_fst a b N M (N - M) D0 Vf' k V)
          (fun V W k h1 h2 => stepCore_congr _ _ N M D0 k h1 h2)
          (fun k V h => bwdDiag_none h)
          (kList D0) (kList_nodup D0) hkpar Vb Vb' hbp
        have HbStep : ∀ k : Int, -D0 ≤ k → k ≤ D0 → (k + D0) % 2 = 0 →
            Ent (fun i => a (N - i - 1)) (fun j => b (M - j - 1)) N M D0 k
              (stepCore (fun i => a (N - i - 1)) (fun j => b (M - j - 1)) N M Vb D0 k) := by
          intro k h1 h2 h3
          exact (step_Ent (fun i => a (N - i - 1)) (fun j => b (M - j - 1)) hN hM hD0 h1 h2 h3
            (fun hA hB => Hb (k + 1) hA hB (by omega))
            (fun hA hB => Hb (k - 1) hA hB (by omega))
            (fun hz => by
              have hk0 : k = 0 := by omega
              rw [hk0, show (0 : Int) + 1 = 1 from by ring]
              exact (Hseed hz).2)).1
        have Hb' : ∀ k : Int, -D0 ≤ k → k ≤ D0 → (k + D0) % 2 = 0 →
            Ent (fun i => a (N - i - 1)) (fun j => b (M - j - 1)) N M D0 k (Vb' k) := by
          intro k h1 h2 h3
          rw [hVb'1 k ((kList_mem hD0).mpr ⟨h1, h2, h3⟩)]
          exact HbStep k h1 h2 h3
        -- completeness: had the distance been within reach, a guard would have fired
        obtain ⟨lE, hEpar⟩ := ed_delta_parity a b hN hM
        have hlow' : 2 * (D0 + 1) - 2 < (ed (listOfF a N) (listOfF b M) : Int) := by
          by_contra hle
          push_neg at hle
          rcases Int.even_or_odd (N - M) with hpar | hpar
          · -- even difference: the distance is `2 D0` and the backward guard fires
            have hEex : (ed (listOfF a N) (listOfF b M) : Int) = 2 * D0 := by
              obtain ⟨c, hc⟩ := hpar
              omega
            obtain ⟨ks, xs, hq1, hq2, hq3, hq4, hq5, hq6, hq7, hq8, hq9, hq10, hq11⟩ :=
              complete_bwd a b hN hM hD0 hEex
            have hGfalse := hVb'G ks ((kList_mem hD0).mpr ⟨hq1, hq2, hq3⟩)
            apply hGfalse
            refine ⟨⟨?_, hq5, hq6⟩, ?_⟩
            · exact (tmod_two_eq_zero_iff (N - M)).mpr ⟨hpar.choose, by
                have := hpar.choose_spec; omega⟩
            · have hdom := (HbStep ks hq1 hq2 hq3).2.2.2
              have hxle : xs ≤ stepCore (fun i => a (N - i - 1)) (fun j => b (M - j - 1))
                  N M Vb D0 ks := by
                apply hdom xs (by omega) (by omega) (by omega) (by omega) (by omega)
              have hfdom := (Hf' (-(ks - (N - M))) (by omega) (by omega) (by omega)).2.2.2
              have hfle : N - xs ≤ Vf' (-(ks - (N - M))) := by
                apply hfdom (N - xs) hq7 hq8 (by omega) (by omega)
                rw [show N - xs - -(ks - (N - M)) = (N - xs) - ((N - M) - ks) from by ring]
                exact hq11
              omega
          · -- odd difference: the distance is `2 D0 - 1` and the forward guard fires
            have hD01 : 1 ≤ D0 := by
              obtain ⟨c, hc⟩ := hpar
              omega
            have hEex : (ed (listOfF a N) (listOfF b M) : Int) = 2 * D0 - 1 := by
              obtain ⟨c, hc⟩ := hpar
              omega
            obtain ⟨ks, xs, hq1, hq2, hq3, hq4, hq5, hq6, hq7, hq8, hq9, hq10, hq11,
              hq12, hq13, hq14, hq15⟩ := complete_fwd a b hN hM hD01 hEex
            have hGfalse := hVf'G ks ((kList_mem hD0).mpr ⟨hq1, hq2, hq3⟩)
            apply hGfalse
            refine ⟨⟨?_, hq9, hq10⟩, ?_⟩
            · apply (tmod_two_natAbs_eq_one_iff (N - M)).mpr
              intro hdvd
              obtain ⟨c, hc⟩ := hpar
              omega
            · have hdom := ((Hstep ks hq1 hq2 hq3).1).2.2.2
              have hxle : xs ≤ stepCore a b N M Vf D0 ks := by
                apply hdom xs hq4 hq5 hq6 hq7 (by omega)
              have hbdom := (Hb (-(ks - (N - M))) hq9 hq10 (by
                obtain ⟨c, hc⟩ := hpar
                omega)).2.2.2
              have hble : N - xs ≤ Vb (-(ks - (N - M))) := by
                apply hbdom (N - xs) hq11 hq12 (by omega) (by omega)
                rw [show N - xs - -(ks - (N - M)) = (N - xs) - ((N - M) - ks) from by ring]
                exact hq15
              omega
        obtain ⟨r, hr1, hr2⟩ := ih (D0 + 1) Vf' Vb' (by omega) hlow'
          (by push_cast at hfuel ⊢; omega)
          (by
            intro k h1 h2 h3
            rw [show D0 + 1 - 1 = D0 from by ring]
            exact Hf' k (by omega) (by omega) (by omega))
          (by
            intro k h1 h2 h3
            rw [show D0 + 1 - 1 = D0 from by ring]
            exact Hb' k (by omega) (by omega) (by omega))
          (fun hz => absurd hz (by omega))
        refine ⟨r, ?_, hr2⟩
        dsimp only
        rw [hbp]
        dsimp only
        exact hr1

theorem findMiddleSnakeCore_main (a b : Int → Int) {N M : Int} (hN : 0 ≤ N) (hM : 0 ≤ M) :
    ∃ r : Snake, findMiddleSnakeCore a N b M (fun _ => 0) (fun _ => 0) = some r ∧
      GoodR a b N M r := by
  have hbound := (ed_bounds (listOfF a N) (listOfF b M)).2.2
  simp only [listOfF_length] at hbound
  unfold findMiddleSnakeCore
  rw [dList_eq_dTail]
  refine dLoop_main a b hN hM ((ceilHalf (M + N) + 1).toNat) 0 _ _ le_rfl (by omega) ?_ ?_ ?_ ?_
  · have hd2 : ceilHalf (M + N) = (M + N + 1) / 2 := rfl
    have h2 : N + M ≤ 2 * ceilHalf (M + N) := by
      rw [hd2]
      omega
    have h3 : 0 ≤ ceilHalf (M + N) := by
      rw [hd2]
      omega
    omega
  · intro k h1 h2 h3
    exfalso
    omega
  · intro k h1 h2 h3
    exfalso
    omega
  · intro _
    exact ⟨upd_same _ _ _, upd_same _ _ _⟩

end MyersDiff
